import Mathlib

/-!
Verification of the `form-data-serializer` core (the `serialize-refactor`
implementation in `src/packages/form-data-serializer/src/serialize-refactor/`
together with the shared extension validator `_validateExtensions`).

The JavaScript code is embedded shallowly:

* JS runtime values that can reach `serialize` are the inductive `JSValue`
  (strings, numbers, booleans, `null`, `undefined`, `Blob`s, plain objects,
  arrays, and opaque "exotic" host values that only extensions understand).
  Numbers are modelled as integers; none of the verified properties depend
  on floating-point behaviour.
* JSON trees (the result of `JSON.parse`, the argument of `JSON.stringify`)
  are the inductive `JSON`.
* A JS string stored in `FormData` is conflated with its `JSON.parse`
  behaviour: `TextVal.jsonOf j` stands for the canonical JSON text of the
  tree `j`, and `TextVal.nonJson s` stands for a string on which
  `JSON.parse` throws.
* `FormData` is an ordered list of key/value entries; `fdSet`/`fdGet`
  mirror `FormData.set` (replace first, drop later duplicates, else append)
  and `FormData.get` (first entry wins).
* A JS `Map` is an ordered association list; `mapSet` mirrors `Map.set`
  (overwrite in place, else append) and `mapGet` mirrors lookup in a map
  built by the `Map` constructor from a pair list (later pairs overwrite
  earlier ones).
* Fresh unique ids (`uuid.v7` or `config.generateDataId`) are modelled as an
  indexed supply `gen : Nat → String` consulted at an incrementing counter;
  the per-call uniqueness demanded of the generator becomes an injectivity
  or wellformedness hypothesis where a proof needs it.
* Thrown `Error`s become `Except Err`; each `Err` constructor corresponds
  to one `throw` site of the source.
-/

set_option maxHeartbeats 1000000

namespace FormDataSerializer

/-- The stored form an extension's `serialize` may produce: a JS string or a
`Blob` (an opaque byte sequence). Mirrors the TS type `string | Blob`. -/
inductive StoredValue where
  | str (s : String)
  | blob (bytes : List Nat)
deriving DecidableEq

mutual
/-- JS runtime values reaching `serialize`/produced by `deserialize`.
`exotic` stands for any host object only an extension understands (a `Date`,
a `bigint`, …), identified by an opaque tag and payload. -/
inductive JSValue where
  | str (s : String)
  | num (n : Int)
  | bool (b : Bool)
  | null
  | undef
  | blob (bytes : List Nat)
  | exotic (tag : String) (payload : String)
  | arr (elems : JSList)
  | obj (entries : JSEntries)

/-- A JS array of values (spine of `JSValue.arr`). -/
inductive JSList where
  | nil
  | cons (head : JSValue) (tail : JSList)

/-- The ordered own enumerable string-keyed entries of a plain JS object. -/
inductive JSEntries where
  | nil
  | cons (key : String) (value : JSValue) (tail : JSEntries)
end

mutual
/-- A JSON tree: what `JSON.parse` returns and `JSON.stringify` consumes. -/
inductive JSON where
  | str (s : String)
  | num (n : Int)
  | bool (b : Bool)
  | null
  | arr (elems : JSONList)
  | obj (entries : JSONEntries)

/-- Spine of `JSON.arr`. -/
inductive JSONList where
  | nil
  | cons (head : JSON) (tail : JSONList)

/-- Ordered entries of `JSON.obj`. -/
inductive JSONEntries where
  | nil
  | cons (key : String) (value : JSON) (tail : JSONEntries)
end

/-- `data === undefined` test from the source. -/
def JSValue.isUndef : JSValue → Bool
  | .undef => true
  | _ => false

/-- `value instanceof Blob` test from the source. -/
def JSValue.isBlob : JSValue → Bool
  | .blob _ => true
  | _ => false

/-- A `SerializationExtension` (see `serialize-refactor/types.ts`): a name, a
`canHandle` type guard, and a `serialize`/`deserialize` pair. -/
structure Extension where
  name : String
  canHandle : JSValue → Bool
  serialize : JSValue → StoredValue
  deserialize : StoredValue → JSValue

/-- The built-in `BlobExtension`: `serialize`/`deserialize` are the identity
(`(value: Blob) => value` and `(value) => value as Blob`); the unreachable
non-`Blob` branches (guarded by `canHandle` on the serialize side and by the
decoder's pre-pass on the deserialize side) are mapped through unchanged,
matching the identity functions of the source. -/
def blobExtension : Extension where
  name := "blob"
  canHandle := JSValue.isBlob
  serialize := fun v =>
    match v with
    | .blob b => .blob b
    | .str s => .str s
    | _ => .blob []
  deserialize := fun sv =>
    match sv with
    | .blob b => .blob b
    | .str s => .str s

/-- Every distinct `throw` site of the embedded code, in source order. -/
inductive Err where
  /-- serialize: "Cannot serialize undefined value". -/
  | undefinedInput
  /-- validator: "Extension name '…' cannot contain colon (:) character". -/
  | extNameColon (name : String)
  /-- validator: "Extension name cannot be empty or whitespace-only". -/
  | extNameEmpty
  /-- validator: "Extension name '…' cannot start with reserved prefixes". -/
  | extNameReserved (name : String)
  /-- validator: "Duplicate extension name found: '…'". -/
  | extNameDuplicate (name : String)
  /-- deserialize: "No data found in FormData". -/
  | noData
  /-- deserialize: "Failed to parse data from FormData: …". -/
  | parseDataFailed
  /-- deserialize pre-pass: "Expected Blob for extension key '…'". -/
  | expectedBlob (key : String)
  /-- deserialize pre-pass: "Failed to parse extension data for key '…'"
  (also wraps the inner "Expected string from JSON.parse" throw, which the
  surrounding `catch` rewraps with this message). -/
  | parseExtFailed (key : String)
  /-- deserialize pre-pass: "Unexpected value type for extension key '…'". -/
  | unexpectedValueType (key : String)
  /-- deserialize walk: "Extension '…' not found in provided extensions". -/
  | unknownExtension (name : String)
  /-- deserialize walk: "Extension data not found for key: …". -/
  | missingPayload (key : String)
  /-- `JSON.stringify` applied to a host value whose textual encoding this
  model does not cover (an exotic value no extension replaced); no theorem
  evaluates the encoder in this situation. -/
  | unmodelledStringify
deriving DecidableEq

/-- A string as it sits in a `FormData` value slot, identified with its
`JSON.parse` behaviour: `jsonOf j` is the canonical JSON text of `j`,
`nonJson s` is a string `JSON.parse` rejects. -/
inductive TextVal where
  | jsonOf (j : JSON)
  | nonJson (s : String)

/-- A `FormData` value: a string or a `Blob`/`File`. -/
inductive FDValue where
  | text (t : TextVal)
  | blob (bytes : List Nat)

/-- `JSON.parse` on a stored string. -/
def jsonParse : TextVal → Option JSON
  | .jsonOf j => some j
  | .nonJson _ => none

/-- The `FormData` container: entries in insertion order. -/
abbrev FormDataM := List (String × FDValue)

/-- `FormData.get`: the first entry with the key, if any. -/
def fdGet : FormDataM → String → Option FDValue
  | [], _ => none
  | p :: rest, k => if p.1 = k then some p.2 else fdGet rest k

/-- Drop every entry with the given key (`FormData.set` removes later
duplicates of the name it sets). -/
def fdDrop : FormDataM → String → FormDataM
  | [], _ => []
  | p :: rest, k => if p.1 = k then fdDrop rest k else p :: fdDrop rest k

/-- `FormData.set`: replace the first entry with the key (dropping any later
ones), else append. -/
def fdSet : FormDataM → String → FDValue → FormDataM
  | [], k, v => [(k, v)]
  | p :: rest, k, v => if p.1 = k then (k, v) :: fdDrop rest k else p :: fdSet rest k v

/-- `Map.set`: overwrite in place keeping insertion position, else append. -/
def mapSet {α : Type} : List (String × α) → String → α → List (String × α)
  | [], k, v => [(k, v)]
  | p :: rest, k, v => if p.1 = k then (k, v) :: rest else p :: mapSet rest k v

/-- Lookup in a JS `Map` built from a pair list: later pairs overwrite
earlier ones (`new Map(entries)` semantics). -/
def mapGet {α : Type} (ps : List (String × α)) (k : String) : Option α :=
  ps.foldl (fun acc p => if p.1 = k then some p.2 else acc) none

/-! ### The reference-key defaults

`serialize-refactor/constants.ts` itself is not among the provided sources
(only its importers are). Modelled from the spec: the reserved data key
defaults to `"$data"` and the placeholder prefix to `"$ext"`
("`<dataKey>` (default `\x7b$data\x7d`…)" is spec table 6; the doc comments of
`serialize.ts` state the same defaults). -/

/-- Modelled from the spec: `DEFAULT_REFERENCE_PREFIX.data`, the default
reserved data key `"$data"` (`serialize-refactor/constants.ts` is missing
from the sources). -/
def defaultDataKey : String := "$data"

/-- Modelled from the spec: `DEFAULT_REFERENCE_PREFIX.extension`, the default
placeholder prefix `"$ext"` (`serialize-refactor/constants.ts` is missing
from the sources). -/
def defaultExtPre : String := "$ext"

/-! ### The placeholder-token pattern

`deserialize` builds `new RegExp("^" + escapedExtPrefix + ":([^:]+):(.+)$")`
where `escapedExtPrefix` escapes the `$` characters of the configured
prefix.  The matcher below implements that regex for prefixes whose
characters are regex-literal once `$` is escaped (the source escapes only
`$`; a prefix containing another metacharacter such as `.` would behave
differently — `regexSafePre` delimits the domain on which this embedding is
faithful).  Per JS regex semantics `[^:]` admits any character but `:`,
while `.` excludes the four line terminators. -/

/-- Characters the default (non-`s`-flag, non-`m`-flag) JS regex `.` does
not match. -/
def isLineTerm (c : Char) : Bool :=
  c = '\n' || c = '\r' || c = ' ' || c = ' '

/-- Strip an expected literal character-list from the front of a string's
characters. -/
def dropPre : List Char → List Char → Option (List Char)
  | [], s => some s
  | _ :: _, [] => none
  | c :: cs, d :: ds => if c = d then dropPre cs ds else none

/-- Split at the first `':'`: the (possibly empty) run before it and the
remainder after it. -/
def splitAtColon : List Char → Option (List Char × List Char)
  | [] => none
  | c :: cs =>
    if c = ':' then some ([], cs)
    else (splitAtColon cs).map (fun p => (c :: p.1, p.2))

/-- `^pre:([^:]+):(.+)$` on character lists: the capture groups on success.
The backtracking-free reading is exact: `[^:]+` can never cross a colon, so
the first group is the nonempty run up to the first `':'` after the prefix,
and `(.+)$` takes the nonempty remainder (in which `.` refuses the four JS
line terminators). -/
def matchTokL (pre s : List Char) : Option (List Char × List Char) :=
  (dropPre (pre ++ [':']) s).bind fun rest =>
    (splitAtColon rest).bind fun p =>
      if p.1 = [] then none
      else if p.2 = [] then none
      else if p.2.any isLineTerm then none
      else some p

/-- `key.match(extRegex)`: the extension name and unique id captured by
`^<escapedPre>:([^:]+):(.+)$`, if the string matches. -/
def matchExtToken (pre s : String) : Option (String × String) :=
  (matchTokL pre.data s.data).map (fun p => (String.mk p.1, String.mk p.2))

/-- A prefix string whose characters the source's partially-escaped regex
treats literally: no regex metacharacter except `$` (which the source
escapes). -/
def regexSafePre (pre : String) : Bool :=
  pre.data.all (fun c => c ∉ (['.', '^', '*', '+', '?', '(', ')', '[', ']',
    '\x7b', '\x7d', '|', '\\', '/'] : List Char))

/-- The reference key minted for one extension-handled value
(`GET_HOLE_KEY`): `pre:extName:id`. -/
def holeKey (pre extName id : String) : String :=
  pre ++ ":" ++ extName ++ ":" ++ id

/-! ### The extension validator (`_validateExtensions`, `utils.ts`) -/

/-- `name.includes(":")`. -/
def containsColon (s : String) : Bool := s.data.any (fun c => c = ':')

/-- `!name.trim()`: the name is empty or whitespace-only.  (JS `trim`
removes a slightly larger Unicode whitespace set than `Char.isWhitespace`;
the difference is irrelevant to every property proved here.) -/
def trimEmpty (s : String) : Bool := s.data.all Char.isWhitespace

/-- Does the string start with the given literal string? -/
def startsWithStr (p s : String) : Bool := (dropPre p.data s.data).isSome

/-- `/^(\$|ref|ext)/.test(name)`: the reserved-prefix test of the
validator. -/
def reservedStart (s : String) : Bool :=
  startsWithStr "$" s || startsWithStr "ref" s || startsWithStr "ext" s

/-- The validator loop with its `seenNames` set (modelled as the list of
names already seen). -/
def validateAux : List String → List Extension → Except Err Unit
  | _, [] => .ok ()
  | seen, e :: rest =>
    if containsColon e.name then .error (.extNameColon e.name)
    else if trimEmpty e.name then .error .extNameEmpty
    else if reservedStart e.name then .error (.extNameReserved e.name)
    else if e.name ∈ seen then .error (.extNameDuplicate e.name)
    else validateAux (e.name :: seen) rest

/-- `_validateExtensions`: checks each extension of the list in order. -/
def validateExtensions (exts : List Extension) : Except Err Unit :=
  validateAux [] exts

/-! ### The encoder (`serialize-refactor/serialize.ts`) -/

/-- The extension-dispatch loop `for (const extension of extensions) if
(extension.canHandle(data)) …`: the first extension claiming the value. -/
def findExt (l : List Extension) (v : JSValue) : Option Extension :=
  l.find? (fun e => e.canHandle v)

/-- Encoder state: the id counter of the fresh-id supply and the `holes`
map from reference key to stored payload. -/
structure EncState where
  ctr : Nat
  holes : List (String × StoredValue)

/-- `replaceWithHole`: serialize the value with the chosen extension, mint a
fresh id, record the payload under the reference key, emit the key. -/
def mint (pre : String) (gen : Nat → String) (e : Extension) (v : JSValue)
    (st : EncState) : JSValue × EncState :=
  let key := holeKey pre e.name (gen st.ctr)
  (.str key, ⟨st.ctr + 1, mapSet st.holes key (e.serialize v)⟩)

mutual
/-- `recursivelyHandle` of `serialize`: return `undefined`/`null` unchanged,
else dispatch to the first claiming extension, else recurse into arrays and
plain objects, else return the (primitive) value unchanged. -/
def encNode (l : List Extension) (pre : String) (gen : Nat → String) :
    JSValue → EncState → JSValue × EncState
  | .undef, st => (.undef, st)
  | .null, st => (.null, st)
  | .str s, st =>
    match findExt l (.str s) with
    | some e => mint pre gen e (.str s) st
    | none => (.str s, st)
  | .num n, st =>
    match findExt l (.num n) with
    | some e => mint pre gen e (.num n) st
    | none => (.num n, st)
  | .bool b, st =>
    match findExt l (.bool b) with
    | some e => mint pre gen e (.bool b) st
    | none => (.bool b, st)
  | .blob bs, st =>
    match findExt l (.blob bs) with
    | some e => mint pre gen e (.blob bs) st
    | none => (.blob bs, st)
  | .exotic t p, st =>
    match findExt l (.exotic t p) with
    | some e => mint pre gen e (.exotic t p) st
    | none => (.exotic t p, st)
  | .arr xs, st =>
    match findExt l (.arr xs) with
    | some e => mint pre gen e (.arr xs) st
    | none =>
      let r := encList l pre gen xs st
      (.arr r.1, r.2)
  | .obj es, st =>
    match findExt l (.obj es) with
    | some e => mint pre gen e (.obj es) st
    | none =>
      let r := encEntries l pre gen es st
      (.obj r.1, r.2)

/-- `data.map(recursivelyHandle)` with the holes state threaded through. -/
def encList (l : List Extension) (pre : String) (gen : Nat → String) :
    JSList → EncState → JSList × EncState
  | .nil, st => (.nil, st)
  | .cons x xs, st =>
    let rx := encNode l pre gen x st
    let rxs := encList l pre gen xs rx.2
    (.cons rx.1 rxs.1, rxs.2)

/-- `for (const [key, value] of Object.entries(data)) result[key] =
recursivelyHandle(value)` (JS object keys are unique, so the assignments
never collide). -/
def encEntries (l : List Extension) (pre : String) (gen : Nat → String) :
    JSEntries → EncState → JSEntries × EncState
  | .nil, st => (.nil, st)
  | .cons k x es, st =>
    let rx := encNode l pre gen x st
    let res := encEntries l pre gen es rx.2
    (.cons k rx.1 res.1, res.2)
end

mutual
/-- `JSON.stringify` of a skeleton, as a tree transformation: `undefined`
has no encoding at the top level, a `Blob` stringifies to `\x7b\x7d` (no own
enumerable properties), and exotic host values are outside the model
(`none`; the pipeline is never evaluated there). -/
def stringifyTree : JSValue → Option JSON
  | .str s => some (.str s)
  | .num n => some (.num n)
  | .bool b => some (.bool b)
  | .null => some .null
  | .undef => none
  | .blob _ => some (.obj .nil)
  | .exotic _ _ => none
  | .arr xs => (stringifyArr xs).map .arr
  | .obj es => (stringifyObj es).map .obj

/-- Array elements: an `undefined` element encodes as `null`. -/
def stringifyArr : JSList → Option JSONList
  | .nil => some .nil
  | .cons x xs =>
    match x with
    | .undef => (stringifyArr xs).map (fun ys => .cons .null ys)
    | _ =>
      match stringifyTree x, stringifyArr xs with
      | some y, some ys => some (.cons y ys)
      | _, _ => none

/-- Object entries: an entry whose value is `undefined` is omitted. -/
def stringifyObj : JSEntries → Option JSONEntries
  | .nil => some .nil
  | .cons k x es =>
    match x with
    | .undef => stringifyObj es
    | _ =>
      match stringifyTree x, stringifyObj es with
      | some y, some ys => some (.cons k y ys)
      | _, _ => none
end

/-- Store one hole in the `FormData`: a `Blob` verbatim, a string as its
JSON-quoted form (`JSON.stringify(value)`). -/
def storedToFD : StoredValue → FDValue
  | .blob b => .blob b
  | .str s => .text (.jsonOf (.str s))

/-- `serialize(obj, config)`: reject `undefined`, validate the caller's
extension list, traverse with `BlobExtension` implicitly prepended, store
the stringified skeleton under the data key and every hole under its
reference key. -/
def serialize (v : JSValue) (exts : List Extension) (gen : Nat → String)
    (dataKey extPre : String) : Except Err FormDataM :=
  if v.isUndef then .error .undefinedInput
  else
    match validateExtensions exts with
    | .error e => .error e
    | .ok () =>
      let l := blobExtension :: exts
      let r := encNode l extPre gen v ⟨0, []⟩
      match stringifyTree r.1 with
      | none => .error .unmodelledStringify
      | some j =>
        .ok (r.2.holes.foldl (fun fd kv => fdSet fd kv.1 (storedToFD kv.2))
          (fdSet [] dataKey (.text (.jsonOf j))))

/-! ### The decoder (`serialize-refactor/deserialize.ts`) -/

/-- One step of the side-table pre-pass over the container entries: skip the
data key and keys that do not match the token pattern; a `blob`-named key
must hold a `Blob`; any other matching key must hold a string whose
`JSON.parse` is a string. -/
def storedStep (dataKey extPre : String)
    (acc : List (String × StoredValue)) (kv : String × FDValue) :
    Except Err (List (String × StoredValue)) :=
  if kv.1 = dataKey then .ok acc
  else
    match matchExtToken extPre kv.1 with
    | none => .ok acc
    | some (name, _) =>
      if name = "blob" then
        match kv.2 with
        | .blob b => .ok (mapSet acc kv.1 (.blob b))
        | .text _ => .error (.expectedBlob kv.1)
      else
        match kv.2 with
        | .text t =>
          match jsonParse t with
          | some (.str s) => .ok (mapSet acc kv.1 (.str s))
          | some _ => .error (.parseExtFailed kv.1)
          | none => .error (.parseExtFailed kv.1)
        | .blob _ => .error (.unexpectedValueType kv.1)

/-- The pre-pass loop, with `throw` aborting the iteration. -/
def buildStoredAux (dataKey extPre : String)
    (acc : List (String × StoredValue)) :
    FormDataM → Except Err (List (String × StoredValue))
  | [] => .ok acc
  | kv :: rest =>
    match storedStep dataKey extPre acc kv with
    | .error e => .error e
    | .ok acc' => buildStoredAux dataKey extPre acc' rest

/-- The side-table pre-pass (`for (const [key, value] of
formData.entries()) …`). -/
def buildStored (fd : FormDataM) (dataKey extPre : String) :
    Except Err (List (String × StoredValue)) :=
  buildStoredAux dataKey extPre [] fd

mutual
/-- `recursivelyHandle` of `deserialize`: a string matching the token
pattern is resolved through the extension map and the side table; arrays
and objects are rebuilt entrywise; everything else passes through. -/
def decNode (extPairs : List (String × Extension))
    (stored : List (String × StoredValue)) (pre : String) :
    JSON → Except Err JSValue
  | .str s =>
    match matchExtToken pre s with
    | some (name, _) =>
      match mapGet extPairs name with
      | none => .error (.unknownExtension name)
      | some e =>
        match mapGet stored s with
        | none => .error (.missingPayload s)
        | some sv => .ok (e.deserialize sv)
    | none => .ok (.str s)
  | .num n => .ok (.num n)
  | .bool b => .ok (.bool b)
  | .null => .ok .null
  | .arr xs =>
    match decList extPairs stored pre xs with
    | .error e => .error e
    | .ok ys => .ok (.arr ys)
  | .obj es =>
    match decEntries extPairs stored pre es with
    | .error e => .error e
    | .ok fs => .ok (.obj fs)

/-- `data.map(recursivelyHandle)` on a parsed array. -/
def decList (extPairs : List (String × Extension))
    (stored : List (String × StoredValue)) (pre : String) :
    JSONList → Except Err JSList
  | .nil => .ok .nil
  | .cons x xs =>
    match decNode extPairs stored pre x with
    | .error e => .error e
    | .ok y =>
      match decList extPairs stored pre xs with
      | .error e => .error e
      | .ok ys => .ok (.cons y ys)

/-- `for (const [key, value] of Object.entries(data)) result[key] =
recursivelyHandle(value)` on a parsed object. -/
def decEntries (extPairs : List (String × Extension))
    (stored : List (String × StoredValue)) (pre : String) :
    JSONEntries → Except Err JSEntries
  | .nil => .ok .nil
  | .cons k x es =>
    match decNode extPairs stored pre x with
    | .error e => .error e
    | .ok y =>
      match decEntries extPairs stored pre es with
      | .error e => .error e
      | .ok ys => .ok (.cons k y ys)
end

/-- `deserialize(formData, config)`: validate the caller's extensions,
build the name→extension map with `BlobExtension` prepended (later entries
of the pair list overwrite earlier ones), read and parse the data entry,
run the side-table pre-pass, then walk the parsed skeleton.  (The source
validates only when `config.extensions` is present; validating the default
`[]`, which always succeeds, is equivalent.) -/
def deserialize (fd : FormDataM) (exts : List Extension)
    (dataKey extPre : String) : Except Err JSValue :=
  match validateExtensions exts with
  | .error e => .error e
  | .ok () =>
    let extPairs := (blobExtension :: exts).map (fun e => (e.name, e))
    match fdGet fd dataKey with
    | some (.text t) =>
      match jsonParse t with
      | none => .error .parseDataFailed
      | some parsed =>
        match buildStored fd dataKey extPre with
        | .error e => .error e
        | .ok stored => decNode extPairs stored extPre parsed
    | _ => .error .noData

/-! ## Model-level helper functions and predicates -/

/-- `data === undefined || data === null` (the early return of both
recursive walkers). -/
def JSValue.isNullish : JSValue → Bool
  | .null => true
  | .undef => true
  | _ => false

/-- The entries of a JS object as an ordinary list. -/
def JSEntries.toList : JSEntries → List (String × JSValue)
  | .nil => []
  | .cons k v es => (k, v) :: es.toList

/-- The keys of a JS object, in order. -/
def JSEntries.keys : JSEntries → List String
  | .nil => []
  | .cons k _ es => k :: es.keys

/-- The keys of a parsed JSON object, in order. -/
def JSONEntries.keys : JSONEntries → List String
  | .nil => []
  | .cons k _ es => k :: es.keys

mutual
/-- The value is built from JSON primitives, arrays and plain mappings
only: no `undefined`, no `Blob`, no exotic host value anywhere. -/
def isPure : JSValue → Bool
  | .str _ => true
  | .num _ => true
  | .bool _ => true
  | .null => true
  | .undef => false
  | .blob _ => false
  | .exotic _ _ => false
  | .arr xs => isPureL xs
  | .obj es => isPureE es

/-- `isPure` on an array spine. -/
def isPureL : JSList → Bool
  | .nil => true
  | .cons x xs => isPure x && isPureL xs

/-- `isPure` on object entries. -/
def isPureE : JSEntries → Bool
  | .nil => true
  | .cons _ x es => isPure x && isPureE es
end

mutual
/-- No extension of the list claims this value or any value the encoder's
traversal reaches inside it (`null`/`undefined` are returned before the
dispatch loop and need no condition). -/
def untouched (l : List Extension) : JSValue → Bool
  | .str s => (findExt l (.str s)).isNone
  | .num n => (findExt l (.num n)).isNone
  | .bool b => (findExt l (.bool b)).isNone
  | .null => true
  | .undef => true
  | .blob bs => (findExt l (.blob bs)).isNone
  | .exotic t p => (findExt l (.exotic t p)).isNone
  | .arr xs => (findExt l (.arr xs)).isNone && untouchedL l xs
  | .obj es => (findExt l (.obj es)).isNone && untouchedE l es

/-- `untouched` on an array spine. -/
def untouchedL (l : List Extension) : JSList → Bool
  | .nil => true
  | .cons x xs => untouched l x && untouchedL l xs

/-- `untouched` on object entries. -/
def untouchedE (l : List Extension) : JSEntries → Bool
  | .nil => true
  | .cons _ x es => untouched l x && untouchedE l es
end

mutual
/-- No string leaf of the value matches the placeholder-token pattern for
the given prefix. -/
def tokenFree (pre : String) : JSValue → Bool
  | .str s => (matchExtToken pre s).isNone
  | .num _ => true
  | .bool _ => true
  | .null => true
  | .undef => true
  | .blob _ => true
  | .exotic _ _ => true
  | .arr xs => tokenFreeL pre xs
  | .obj es => tokenFreeE pre es

/-- `tokenFree` on an array spine. -/
def tokenFreeL (pre : String) : JSList → Bool
  | .nil => true
  | .cons x xs => tokenFree pre x && tokenFreeL pre xs

/-- `tokenFree` on object entries. -/
def tokenFreeE (pre : String) : JSEntries → Bool
  | .nil => true
  | .cons _ x es => tokenFree pre x && tokenFreeE pre es
end

/-! ## Characterization of the placeholder-token matcher -/

theorem dropPre_eq_some {a : List Char} :
    ∀ {s r : List Char}, dropPre a s = some r ↔ s = a ++ r := by
  induction a with
  | nil =>
    intro s r
    simp [dropPre]
  | cons c cs ih =>
    intro s r
    cases s with
    | nil => simp [dropPre]
    | cons d ds =>
      simp only [dropPre, List.cons_append, List.cons.injEq]
      by_cases hcd : c = d
      · subst hcd
        simp [ih]
      · rw [if_neg hcd]
        constructor
        · intro h; cases h
        · rintro ⟨h1, -⟩; exact absurd h1.symm hcd

theorem splitAtColon_eq_some :
    ∀ {s n i : List Char}, splitAtColon s = some (n, i) ↔
      s = n ++ ':' :: i ∧ ':' ∉ n := by
  intro s
  induction s with
  | nil =>
    intro n i
    simp only [splitAtColon]
    constructor
    · intro h; cases h
    · rintro ⟨h, -⟩
      cases n <;> simp at h
  | cons c cs ih =>
    intro n i
    by_cases hc : c = ':'
    · subst hc
      simp only [splitAtColon, if_pos rfl, Option.some.injEq, Prod.mk.injEq]
      constructor
      · rintro ⟨rfl, rfl⟩
        simp
      · rintro ⟨heq, hnot⟩
        cases n with
        | nil => simpa using heq
        | cons cn ns =>
          simp only [List.cons_append, List.cons.injEq] at heq
          exact absurd (heq.1 ▸ List.mem_cons_self _ _) (heq.1 ▸ hnot)
    · simp only [splitAtColon, if_neg hc]
      constructor
      · intro h
        rcases Option.map_eq_some'.mp h with ⟨⟨n', i'⟩, hsp, hmk⟩
        simp only [Prod.mk.injEq] at hmk
        rcases hmk with ⟨hn, hi⟩
        subst hn; subst hi
        rcases ih.mp hsp with ⟨hcs, hnm⟩
        refine ⟨by simp [hcs], ?_⟩
        intro hm
        rcases List.mem_cons.mp hm with h' | h'
        · exact hc h'.symm
        · exact hnm h'
      · rintro ⟨heq, hnot⟩
        cases n with
        | nil =>
          simp only [List.nil_append, List.cons.injEq] at heq
          exact absurd heq.1 hc
        | cons cn ns =>
          simp only [List.cons_append, List.cons.injEq] at heq
          rcases heq with ⟨rfl, hcs⟩
          have hns : ':' ∉ ns := fun hm => hnot (List.mem_cons_of_mem _ hm)
          rw [ih.mpr ⟨hcs, hns⟩]
          rfl

theorem matchTokL_eq_some {pre s n i : List Char} :
    matchTokL pre s = some (n, i) ↔
      s = pre ++ ':' :: (n ++ ':' :: i) ∧ n ≠ [] ∧ ':' ∉ n ∧ i ≠ [] ∧
        i.any isLineTerm = false := by
  constructor
  · intro h
    unfold matchTokL at h
    cases hd : dropPre (pre ++ [':']) s with
    | none => rw [hd] at h; cases h
    | some rest =>
      rw [hd, Option.some_bind] at h
      cases hs : splitAtColon rest with
      | none => rw [hs] at h; cases h
      | some p =>
        rw [hs, Option.some_bind] at h
        obtain ⟨n', i'⟩ := p
        dsimp only at h
        by_cases ha : n' = []
        · rw [if_pos ha] at h; cases h
        · rw [if_neg ha] at h
          by_cases hb : i' = []
          · rw [if_pos hb] at h; cases h
          · rw [if_neg hb] at h
            by_cases hcv : i'.any isLineTerm = true
            · rw [if_pos hcv] at h; cases h
            · rw [if_neg hcv] at h
              injection h with h'
              injection h' with hn hi
              subst hn; subst hi
              rcases splitAtColon_eq_some.mp hs with ⟨hrest, hnm⟩
              have hsd := dropPre_eq_some.mp hd
              refine ⟨?_, ha, hnm, hb, by simpa using hcv⟩
              rw [hsd, hrest]
              simp
  · rintro ⟨rfl, h1, h2, h3, h4⟩
    have hd : dropPre (pre ++ [':']) (pre ++ ':' :: (n ++ ':' :: i)) =
        some (n ++ ':' :: i) := by
      rw [dropPre_eq_some]
      simp
    have hs : splitAtColon (n ++ ':' :: i) = some (n, i) :=
      splitAtColon_eq_some.mpr ⟨rfl, h2⟩
    unfold matchTokL
    rw [hd, Option.some_bind, hs, Option.some_bind]
    simp [h1, h3, h4]

theorem containsColon_eq_false {s : String} :
    containsColon s = false ↔ ':' ∉ s.data := by
  unfold containsColon
  constructor
  · intro h hm
    have ht : s.data.any (fun c => c = ':') = true :=
      List.any_eq_true.mpr ⟨':', hm, by simp⟩
    rw [h] at ht; cases ht
  · intro h
    cases hx : s.data.any (fun c => c = ':') with
    | false => rfl
    | true =>
      rcases List.any_eq_true.mp hx with ⟨c, hc, hcd⟩
      simp only [decide_eq_true_eq] at hcd
      subst hcd
      exact absurd hc h

theorem str_ne_empty_iff {a : String} : a ≠ "" ↔ a.data ≠ [] := by
  constructor
  · intro h hd
    exact h (String.ext (by simpa using hd))
  · intro h hd
    rw [hd] at h
    exact h rfl

/-- String-level characterization: `matchExtToken pre s` succeeds with
captures `(n, i)` exactly when `s` is `pre ++ ":" ++ n ++ ":" ++ i` with a
nonempty colon-free name and a nonempty id free of line terminators. -/
theorem matchExtToken_eq_some {pre s n i : String} :
    matchExtToken pre s = some (n, i) ↔
      s = pre ++ ":" ++ n ++ ":" ++ i ∧ n ≠ "" ∧ containsColon n = false ∧
        i ≠ "" ∧ i.data.any isLineTerm = false := by
  constructor
  · intro h
    unfold matchExtToken at h
    cases hm : matchTokL pre.data s.data with
    | none => rw [hm] at h; cases h
    | some p =>
      rw [hm] at h
      obtain ⟨nd, idl⟩ := p
      simp only [Option.map_some'] at h
      injection h with h'
      injection h' with hn hi
      rcases matchTokL_eq_some.mp hm with ⟨hsd, h1, h2, h3, h4⟩
      subst hn; subst hi
      refine ⟨?_, ?_, ?_, ?_, h4⟩
      · apply String.ext
        simp only [String.data_append]
        rw [hsd]
        simp [show (":" : String).data = [':'] from rfl]
      · exact str_ne_empty_iff.mpr h1
      · exact containsColon_eq_false.mpr h2
      · exact str_ne_empty_iff.mpr h3
  · rintro ⟨rfl, h1, h2, h3, h4⟩
    have hm : matchTokL pre.data (pre ++ ":" ++ n ++ ":" ++ i).data =
        some (n.data, i.data) := by
      rw [matchTokL_eq_some]
      refine ⟨?_, str_ne_empty_iff.mp h1, containsColon_eq_false.mp h2,
        str_ne_empty_iff.mp h3, h4⟩
      simp [String.data_append, show (":" : String).data = [':'] from rfl]
    unfold matchExtToken
    rw [hm, Option.map_some']

/-- The key the encoder mints always matches the token pattern back, for a
nonempty colon-free extension name and a nonempty line-terminator-free id. -/
theorem matchExtToken_holeKey {pre n i : String} (h1 : n ≠ "")
    (h2 : containsColon n = false) (h3 : i ≠ "")
    (h4 : i.data.any isLineTerm = false) :
    matchExtToken pre (holeKey pre n i) = some (n, i) :=
  matchExtToken_eq_some.mpr ⟨rfl, h1, h2, h3, h4⟩

/-- A minted key for the `"$ext"` prefix never collides with the `"$data"`
data key (they differ at their second character). -/
theorem holeKey_ne_dataKey (n i : String) : holeKey "$ext" n i ≠ "$data" := by
  intro h
  have hd : (holeKey "$ext" n i).data = ("$data" : String).data := by rw [h]
  simp only [holeKey, String.data_append,
    show ("$ext" : String).data = ['$', 'e', 'x', 't'] from rfl,
    show (":" : String).data = [':'] from rfl,
    show ("$data" : String).data = ['$', 'd', 'a', 't', 'a'] from rfl,
    List.append_assoc, List.cons_append, List.nil_append] at hd
  injection hd with h1 hd
  injection hd with h2 hd
  exact absurd h2 (by decide)

/-! ## The extension-dispatch loop -/

/-- `findExt` returns an extension that claims the value, and every
extension listed before it rejects the value: the first-match
decomposition of the dispatch loop. -/
theorem findExt_eq_some_iff {v : JSValue} {E : Extension} :
    ∀ {l : List Extension}, findExt l v = some E →
      ∃ l₁ l₂, l = l₁ ++ E :: l₂ ∧ E.canHandle v = true ∧
        ∀ F ∈ l₁, F.canHandle v = false := by
  intro l
  induction l with
  | nil => intro h; cases h
  | cons F rest ih =>
    intro h
    unfold findExt at h
    cases hF : F.canHandle v with
    | true =>
      have hfind : List.find? (fun e => e.canHandle v) (F :: rest) = some F := by
        simp [List.find?, hF]
      rw [hfind] at h
      injection h with h'
      exact ⟨[], rest, by rw [h']; rfl, h' ▸ hF, by intro G hG; cases hG⟩
    | false =>
      have hfind : List.find? (fun e => e.canHandle v) (F :: rest) =
          List.find? (fun e => e.canHandle v) rest := by
        simp [List.find?, hF]
      rw [hfind] at h
      rcases ih h with ⟨l₁, l₂, hl, hc, hrej⟩
      refine ⟨F :: l₁, l₂, by rw [hl]; rfl, hc, ?_⟩
      intro G hG
      rcases List.mem_cons.mp hG with rfl | hG'
      · exact hF
      · exact hrej G hG'

/-- If some listed extension claims the value, the dispatch loop fires. -/
theorem findExt_isSome_of_mem {v : JSValue} {F : Extension} :
    ∀ {l : List Extension}, F ∈ l → F.canHandle v = true →
      ∃ E, findExt l v = some E := by
  intro l
  induction l with
  | nil => intro h; cases h
  | cons G rest ih =>
    intro hmem hc
    cases hG : G.canHandle v with
    | true => exact ⟨G, by unfold findExt; simp [List.find?, hG]⟩
    | false =>
      rcases List.mem_cons.mp hmem with rfl | hmem'
      · rw [hG] at hc; cases hc
      · rcases ih hmem' hc with ⟨E, hE⟩
        refine ⟨E, ?_⟩
        unfold findExt at hE ⊢
        have hfind : List.find? (fun e => e.canHandle v) (G :: rest) =
            List.find? (fun e => e.canHandle v) rest := by
          simp [List.find?, hG]
        rw [hfind]
        exact hE

/-- On a non-null, non-`undefined` value the encoder's walker hands a
claimed value to `replaceWithHole` with the extension the dispatch loop
selected. -/
theorem encNode_fired {l : List Extension} {pre : String} {gen : Nat → String}
    {v : JSValue} {E : Extension} {st : EncState}
    (hnn : v.isNullish = false) (hf : findExt l v = some E) :
    encNode l pre gen v st = mint pre gen E v st := by
  cases v with
  | null => cases hnn
  | undef => cases hnn
  | str s => simp [encNode, hf]
  | num n => simp [encNode, hf]
  | bool b => simp [encNode, hf]
  | blob bs => simp [encNode, hf]
  | exotic t p => simp [encNode, hf]
  | arr xs => simp [encNode, hf]
  | obj es => simp [encNode, hf]

/-! ## Characterization of the validator -/

/-- A name every check of `_validateExtensions` accepts. -/
def goodName (s : String) : Prop :=
  containsColon s = false ∧ trimEmpty s = false ∧ reservedStart s = false

theorem validateAux_ok_iff :
    ∀ (exts : List Extension) (seen : List String),
      validateAux seen exts = .ok () ↔
        (∀ e ∈ exts, goodName e.name) ∧
          (exts.map (fun e => e.name)).Nodup ∧
          ∀ e ∈ exts, e.name ∉ seen := by
  intro exts
  induction exts with
  | nil => intro seen; simp [validateAux]
  | cons e rest ih =>
    intro seen
    unfold validateAux
    by_cases h1 : containsColon e.name = true
    · rw [if_pos h1]
      constructor
      · intro h; cases h
      · rintro ⟨hg, -, -⟩
        exact absurd h1 (by simp [(hg e (List.mem_cons_self e rest)).1])
    · rw [if_neg h1]
      by_cases h2 : trimEmpty e.name = true
      · rw [if_pos h2]
        constructor
        · intro h; cases h
        · rintro ⟨hg, -, -⟩
          exact absurd h2 (by simp [(hg e (List.mem_cons_self e rest)).2.1])
      · rw [if_neg h2]
        by_cases h3 : reservedStart e.name = true
        · rw [if_pos h3]
          constructor
          · intro h; cases h
          · rintro ⟨hg, -, -⟩
            exact absurd h3 (by simp [(hg e (List.mem_cons_self e rest)).2.2])
        · rw [if_neg h3]
          by_cases h4 : e.name ∈ seen
          · rw [if_pos h4]
            constructor
            · intro h; cases h
            · rintro ⟨-, -, hs⟩
              exact absurd h4 (hs e (List.mem_cons_self e rest))
          · rw [if_neg h4]
            rw [ih (e.name :: seen)]
            constructor
            · rintro ⟨hg, hnd, hs⟩
              refine ⟨?_, ?_, ?_⟩
              · intro f hf
                rcases List.mem_cons.mp hf with rfl | hf'
                · exact ⟨by simpa using h1, by simpa using h2, by simpa using h3⟩
                · exact hg f hf'
              · refine List.Nodup.cons ?_ hnd
                intro hmem
                rcases List.mem_map.mp hmem with ⟨f, hf, hfe⟩
                exact (hs f hf) (by rw [hfe]; exact List.mem_cons_self _ _)
              · intro f hf
                rcases List.mem_cons.mp hf with rfl | hf'
                · exact h4
                · intro hmem
                  exact (hs f hf') (List.mem_cons_of_mem _ hmem)
            · rintro ⟨hg, hnd, hs⟩
              refine ⟨fun f hf => hg f (List.mem_cons_of_mem _ hf), (List.nodup_cons.mp hnd).2, ?_⟩
              intro f hf hmem
              rcases List.mem_cons.mp hmem with hfe | hmem'
              · refine (List.nodup_cons.mp hnd).1 ?_
                show e.name ∈ List.map (fun e => e.name) rest
                rw [← hfe]
                exact List.mem_map.mpr ⟨f, hf, rfl⟩
              · exact (hs f (List.mem_cons_of_mem _ hf)) hmem'

theorem validateExtensions_ok_iff {exts : List Extension} :
    validateExtensions exts = .ok () ↔
      (∀ e ∈ exts, goodName e.name) ∧ (exts.map (fun e => e.name)).Nodup := by
  unfold validateExtensions
  rw [validateAux_ok_iff]
  simp

theorem validateAux_error_colon :
    ∀ (exts : List Extension) (seen : List String) (nm : String),
      validateAux seen exts = .error (.extNameColon nm) →
        ∃ e ∈ exts, e.name = nm ∧ containsColon nm = true := by
  intro exts
  induction exts with
  | nil => intro seen nm h; cases h
  | cons e rest ih =>
    intro seen nm h
    unfold validateAux at h
    by_cases h1 : containsColon e.name = true
    · rw [if_pos h1] at h
      injection h with h'
      injection h' with h''
      exact ⟨e, List.mem_cons_self e rest, h'', h'' ▸ h1⟩
    · rw [if_neg h1] at h
      by_cases h2 : trimEmpty e.name = true
      · rw [if_pos h2] at h; injection h with h'; cases h'
      · rw [if_neg h2] at h
        by_cases h3 : reservedStart e.name = true
        · rw [if_pos h3] at h; injection h with h'; cases h'
        · rw [if_neg h3] at h
          by_cases h4 : e.name ∈ seen
          · rw [if_pos h4] at h; injection h with h'; cases h'
          · rw [if_neg h4] at h
            rcases ih (e.name :: seen) nm h with ⟨f, hf, he, hc⟩
            exact ⟨f, List.mem_cons_of_mem _ hf, he, hc⟩

theorem validateAux_error_empty :
    ∀ (exts : List Extension) (seen : List String),
      validateAux seen exts = .error .extNameEmpty →
        ∃ e ∈ exts, trimEmpty e.name = true := by
  intro exts
  induction exts with
  | nil => intro seen h; cases h
  | cons e rest ih =>
    intro seen h
    unfold validateAux at h
    by_cases h1 : containsColon e.name = true
    · rw [if_pos h1] at h; injection h with h'; cases h'
    · rw [if_neg h1] at h
      by_cases h2 : trimEmpty e.name = true
      · exact ⟨e, List.mem_cons_self e rest, h2⟩
      · rw [if_neg h2] at h
        by_cases h3 : reservedStart e.name = true
        · rw [if_pos h3] at h; injection h with h'; cases h'
        · rw [if_neg h3] at h
          by_cases h4 : e.name ∈ seen
          · rw [if_pos h4] at h; injection h with h'; cases h'
          · rw [if_neg h4] at h
            rcases ih (e.name :: seen) h with ⟨f, hf, hc⟩
            exact ⟨f, List.mem_cons_of_mem _ hf, hc⟩

theorem validateAux_error_reserved :
    ∀ (exts : List Extension) (seen : List String) (nm : String),
      validateAux seen exts = .error (.extNameReserved nm) →
        ∃ e ∈ exts, e.name = nm ∧ reservedStart nm = true := by
  intro exts
  induction exts with
  | nil => intro seen nm h; cases h
  | cons e rest ih =>
    intro seen nm h
    unfold validateAux at h
    by_cases h1 : containsColon e.name = true
    · rw [if_pos h1] at h; injection h with h'; cases h'
    · rw [if_neg h1] at h
      by_cases h2 : trimEmpty e.name = true
      · rw [if_pos h2] at h; injection h with h'; cases h'
      · rw [if_neg h2] at h
        by_cases h3 : reservedStart e.name = true
        · rw [if_pos h3] at h
          injection h with h'
          injection h' with h''
          exact ⟨e, List.mem_cons_self e rest, h'', h'' ▸ h3⟩
        · rw [if_neg h3] at h
          by_cases h4 : e.name ∈ seen
          · rw [if_pos h4] at h; injection h with h'; cases h'
          · rw [if_neg h4] at h
            rcases ih (e.name :: seen) nm h with ⟨f, hf, he, hc⟩
            exact ⟨f, List.mem_cons_of_mem _ hf, he, hc⟩

theorem validateAux_error_dup :
    ∀ (exts : List Extension) (seen : List String) (nm : String),
      validateAux seen exts = .error (.extNameDuplicate nm) →
        ∃ e ∈ exts, e.name = nm ∧
          (nm ∈ seen ∨ ¬ (exts.map (fun e => e.name)).Nodup ∨
            ∃ f ∈ exts, f.name ∈ seen) := by
  intro exts
  induction exts with
  | nil => intro seen nm h; cases h
  | cons e rest ih =>
    intro seen nm h
    unfold validateAux at h
    by_cases h1 : containsColon e.name = true
    · rw [if_pos h1] at h; injection h with h'; cases h'
    · rw [if_neg h1] at h
      by_cases h2 : trimEmpty e.name = true
      · rw [if_pos h2] at h; injection h with h'; cases h'
      · rw [if_neg h2] at h
        by_cases h3 : reservedStart e.name = true
        · rw [if_pos h3] at h; injection h with h'; cases h'
        · rw [if_neg h3] at h
          by_cases h4 : e.name ∈ seen
          · rw [if_pos h4] at h
            injection h with h'
            injection h' with h''
            exact ⟨e, List.mem_cons_self e rest, h'', Or.inl (h'' ▸ h4)⟩
          · rw [if_neg h4] at h
            rcases ih (e.name :: seen) nm h with ⟨f, hf, he, hrest⟩
            refine ⟨f, List.mem_cons_of_mem _ hf, he, ?_⟩
            rcases hrest with hseen | hnd | ⟨g, hg, hgs⟩
            · rcases List.mem_cons.mp hseen with rfl | hseen'
              · exact Or.inr (Or.inl (by
                  simp only [List.map_cons, List.nodup_cons]
                  intro hc
                  exact hc.1 (List.mem_map.mpr ⟨f, hf, he⟩)))
              · exact Or.inl hseen'
            · exact Or.inr (Or.inl (by
                simp only [List.map_cons, List.nodup_cons]
                intro hc
                exact hnd hc.2))
            · rcases List.mem_cons.mp hgs with hge | hgs'
              · exact Or.inr (Or.inl (by
                  simp only [List.map_cons, List.nodup_cons]
                  intro hc
                  refine hc.1 ?_
                  rw [← hge]
                  exact List.mem_map.mpr ⟨g, hg, rfl⟩))
              · exact Or.inr (Or.inr ⟨g, List.mem_cons_of_mem _ hg, hgs'⟩)

/-! ## Fixture extensions used by concrete counterexamples and witnesses -/

/-- A caller extension whose name starts with `ref` (but not with the data
key or the placeholder prefix). -/
def refreshExt : Extension where
  name := "refresh"
  canHandle := fun _ => false
  serialize := fun _ => .str ""
  deserialize := fun _ => .null

/-- A caller extension claiming `null` (first of two). -/
def nullExtA : Extension where
  name := "nulla"
  canHandle := fun v => match v with | .null => true | _ => false
  serialize := fun _ => .str "null"
  deserialize := fun _ => .null

/-- A caller extension claiming `null` (second of two). -/
def nullExtB : Extension where
  name := "nullb"
  canHandle := fun v => match v with | .null => true | _ => false
  serialize := fun _ => .str "null"
  deserialize := fun _ => .null

/-- A caller extension that also claims `Blob` values, competing with the
built-in `BlobExtension`. -/
def mirrorBlobExt : Extension where
  name := "mirror"
  canHandle := JSValue.isBlob
  serialize := fun _ => .str "b"
  deserialize := fun _ => .null

/-- A caller extension named `"blob"`, shadowing the built-in one by name
while claiming a different (exotic) type and producing a textual payload. -/
def shadowBlobExt : Extension where
  name := "blob"
  canHandle := fun v => match v with | .exotic "x" _ => true | _ => false
  serialize := fun v => match v with | .exotic _ p => .str p | _ => .str ""
  deserialize := fun sv => match sv with | .str s => .exotic "x" s | .blob _ => .null

/-- A caller extension whose `serialize` produces a binary payload. -/
def binPayloadExt : Extension where
  name := "bin"
  canHandle := fun v => match v with | .exotic "y" _ => true | _ => false
  serialize := fun _ => .blob [1, 2]
  deserialize := fun _ => .null

/-- A date-like caller extension with a textual payload. -/
def dateLikeExt : Extension where
  name := "date"
  canHandle := fun v => match v with | .exotic "date" _ => true | _ => false
  serialize := fun v => match v with | .exotic _ p => .str p | _ => .str ""
  deserialize := fun sv => match sv with | .str s => .exotic "date" s | .blob _ => .null

/-- A fixed id supply. -/
def gen0 : Nat → String := fun n => toString (n + 1)

/-! ## Claim C7 — placeholder token grammar -/

/-- Claim C7: during decoding a skeleton string is treated as a placeholder
token exactly when it matches `^<escapedPre>:([^:]+):(.+)$`; the name
capture is nonempty and colon-free while the id may contain colons, and a
matching token is resolved through the extension map and the side table
keyed by the full token string. -/
theorem c7_token_grammar (pre s n i : String)
    (hsafe : regexSafePre pre = true)
    (m : List (String × Extension)) (st : List (String × StoredValue)) :
    (matchExtToken pre s = some (n, i) ↔
      s = pre ++ ":" ++ n ++ ":" ++ i ∧ n ≠ "" ∧ containsColon n = false ∧
        i ≠ "" ∧ i.data.any isLineTerm = false) ∧
    (matchExtToken pre s = none → decNode m st pre (.str s) = .ok (.str s)) ∧
    (matchExtToken pre s = some (n, i) →
      decNode m st pre (.str s) =
        match mapGet m n with
        | none => .error (.unknownExtension n)
        | some e =>
          match mapGet st s with
          | none => .error (.missingPayload s)
          | some sv => .ok (e.deserialize sv)) := by
  refine ⟨matchExtToken_eq_some, ?_, ?_⟩
  · intro h
    unfold decNode
    rw [h]
  · intro h
    unfold decNode
    rw [h]

/-- Witness for C7 at the default prefix with a colon-carrying id. -/
theorem c7_witness :
    matchExtToken "$ext" "$ext:date:a:b" = some ("date", "a:b") ∧
    decNode [] [] "$ext" (.str "plain") = .ok (.str "plain") :=
  ⟨(c7_token_grammar "$ext" "$ext:date:a:b" "date" "a:b" (by decide) [] []).1.mpr
      ⟨by decide, by decide, by decide, by decide, by decide⟩,
    (c7_token_grammar "$ext" "plain" "" "" (by decide) [] []).2.1 (by decide)⟩

/-! ## Claim C5 — the validator -/

/-- Claim C5 counterexample: `"refresh"` is rejected with the
reserved-prefix error although it starts with neither the data key
`"$data"` nor the placeholder prefix `"$ext"` (nor even `"$"`): the
reserved prefixes actually tested are `$`, `ref` and `ext`. -/
theorem c5_counterexample :
    validateExtensions [refreshExt] = .error (.extNameReserved "refresh") ∧
    startsWithStr "$data" "refresh" = false ∧
    startsWithStr "$ext" "refresh" = false ∧
    startsWithStr "$" "refresh" = false :=
  ⟨rfl, rfl, rfl, rfl⟩

/-- Claim C5 (amended): the validator accepts a list exactly when every
name is colon-free, not whitespace-only and avoids the reserved prefixes
`$`/`ref`/`ext`, and the names are pairwise distinct; each failure kind
implies its condition on some listed extension. -/
theorem c5_validator (exts : List Extension) :
    (validateExtensions exts = .ok () ↔
      (∀ e ∈ exts, goodName e.name) ∧ (exts.map (fun e => e.name)).Nodup) ∧
    (∀ nm, validateExtensions exts = .error (.extNameColon nm) →
      ∃ e ∈ exts, e.name = nm ∧ containsColon nm = true) ∧
    (validateExtensions exts = .error .extNameEmpty →
      ∃ e ∈ exts, trimEmpty e.name = true) ∧
    (∀ nm, validateExtensions exts = .error (.extNameReserved nm) →
      ∃ e ∈ exts, e.name = nm ∧ reservedStart nm = true) ∧
    (∀ nm, validateExtensions exts = .error (.extNameDuplicate nm) →
      ∃ e ∈ exts, e.name = nm ∧ ¬ (exts.map (fun e => e.name)).Nodup) := by
  refine ⟨validateExtensions_ok_iff, ?_, ?_, ?_, ?_⟩
  · intro nm h
    exact validateAux_error_colon exts [] nm h
  · intro h
    exact validateAux_error_empty exts [] h
  · intro nm h
    exact validateAux_error_reserved exts [] nm h
  · intro nm h
    rcases validateAux_error_dup exts [] nm h with ⟨e, he, hnm, hrest⟩
    refine ⟨e, he, hnm, ?_⟩
    rcases hrest with hseen | hnd | ⟨f, hf, hfs⟩
    · cases hseen
    · exact hnd
    · cases hfs

/-- Witness for C5: a well-named singleton list is accepted. -/
theorem c5_witness : validateExtensions [dateLikeExt] = .ok () := by
  apply (c5_validator [dateLikeExt]).1.mpr
  refine ⟨?_, by decide⟩
  intro e he
  rcases List.mem_cons.mp he with rfl | h
  · exact ⟨by decide, by decide, by decide⟩
  · cases h

/-! ## Claim C3 — first-match-wins dispatch -/

/-- Claim C3 counterexample: `null` short-circuits before the dispatch
loop, so even with two extensions whose `canHandle` accepts the value no
placeholder token is emitted and no `serialize` runs — the container holds
only the `null` skeleton. -/
theorem c3_counterexample :
    nullExtA.canHandle .null = true ∧ nullExtB.canHandle .null = true ∧
    serialize .null [nullExtA, nullExtB] gen0 "$data" "$ext" =
      .ok [("$data", .text (.jsonOf .null))] :=
  ⟨rfl, rfl, rfl⟩

/-- Claim C3 (amended): whenever the encoder reaches a non-null,
non-`undefined` value claimed by at least two extensions of the dispatch
list (the built-in blob extension implicitly prepended as its head), the
first claiming extension in list order is selected: every extension before
it rejects the value, its `serialize` output is the only payload recorded
at this node, and its name is the name component of the emitted token. -/
theorem c3_first_match_wins (exts : List Extension) (pre : String)
    (gen : Nat → String) (v : JSValue) (st : EncState)
    (hnn : v.isNullish = false)
    (hmulti : ∃ E₁ E₂ l₁ l₂ l₃,
      blobExtension :: exts = l₁ ++ E₁ :: l₂ ++ E₂ :: l₃ ∧
        E₁.canHandle v = true ∧ E₂.canHandle v = true) :
    ∃ E l₁ l₂, blobExtension :: exts = l₁ ++ E :: l₂ ∧
      E.canHandle v = true ∧ (∀ F ∈ l₁, F.canHandle v = false) ∧
      encNode (blobExtension :: exts) pre gen v st =
        (.str (holeKey pre E.name (gen st.ctr)),
          ⟨st.ctr + 1,
            mapSet st.holes (holeKey pre E.name (gen st.ctr)) (E.serialize v)⟩) := by
  rcases hmulti with ⟨E₁, E₂, l₁, l₂, l₃, hlist, hc1, hc2⟩
  have hmem : E₁ ∈ blobExtension :: exts := by
    rw [hlist]
    exact List.mem_append.mpr
      (Or.inl (List.mem_append.mpr (Or.inr (List.mem_cons_self _ _))))
  rcases findExt_isSome_of_mem hmem hc1 with ⟨E, hE⟩
  rcases findExt_eq_some_iff hE with ⟨m₁, m₂, hm, hcE, hrej⟩
  exact ⟨E, m₁, m₂, hm, hcE, hrej, encNode_fired hnn hE⟩

/-- Witness for C3 (amended): a `Blob` value with a competing caller blob
handler — the built-in head wins and its name is in the token. -/
theorem c3_witness :
    ∃ E l₁ l₂, blobExtension :: [mirrorBlobExt] = l₁ ++ E :: l₂ ∧
      E.canHandle (.blob [7]) = true ∧
      (∀ F ∈ l₁, F.canHandle (.blob [7]) = false) ∧
      encNode (blobExtension :: [mirrorBlobExt]) "$ext" gen0 (.blob [7]) ⟨0, []⟩ =
        (.str (holeKey "$ext" E.name (gen0 0)),
          ⟨1, mapSet [] (holeKey "$ext" E.name (gen0 0)) (E.serialize (.blob [7]))⟩) :=
  c3_first_match_wins [mirrorBlobExt] "$ext" gen0 (.blob [7]) ⟨0, []⟩ rfl
    ⟨blobExtension, mirrorBlobExt, [], [], [], rfl, rfl, rfl⟩

/-! ## Claim C9 — a caller extension named `blob` -/

/-- Claim C9: the validator accepts a caller extension named `"blob"` (the
implicit built-in head is not part of the validated list); for `Blob`
values the dispatch loop still selects the built-in extension, which
precedes the caller's in the list; but the decoder's name→extension map,
built with later entries overwriting earlier ones, resolves `"blob"` to
the caller's extension. -/
theorem c9_blob_shadowing (E : Extension) (hname : E.name = "blob") :
    validateExtensions [E] = .ok () ∧
    (∀ v : JSValue, blobExtension.canHandle v = true →
      findExt (blobExtension :: [E]) v = some blobExtension) ∧
    mapGet ((blobExtension :: [E]).map (fun e => (e.name, e))) "blob" = some E := by
  refine ⟨?_, ?_, ?_⟩
  · apply validateExtensions_ok_iff.mpr
    refine ⟨?_, by simp⟩
    intro e he
    rcases List.mem_cons.mp he with rfl | h
    · exact ⟨by rw [hname]; decide, by rw [hname]; decide, by rw [hname]; decide⟩
    · cases h
  · intro v hv
    unfold findExt
    simp [List.find?, hv]
  · simp [mapGet, hname]

/-- Witness for C9 at a concrete shadowing extension. -/
theorem c9_witness :
    validateExtensions [shadowBlobExt] = .ok () ∧
    findExt (blobExtension :: [shadowBlobExt]) (.blob [3]) = some blobExtension ∧
    mapGet ((blobExtension :: [shadowBlobExt]).map (fun e => (e.name, e))) "blob" =
      some shadowBlobExt := by
  have h := c9_blob_shadowing shadowBlobExt rfl
  exact ⟨h.1, h.2.1 (.blob [3]) rfl, h.2.2⟩

/-! ## Claim C10 — the side-table pre-pass is strict -/

/-- If some entry makes `storedStep` throw regardless of the accumulator,
the whole pre-pass loop throws. -/
theorem buildStoredAux_error_of_mem {dataKey extPre : String}
    {kv : String × FDValue}
    (hbad : ∀ acc, ∃ e, storedStep dataKey extPre acc kv = .error e) :
    ∀ (fd : FormDataM) (acc : List (String × StoredValue)), kv ∈ fd →
      ∃ e, buildStoredAux dataKey extPre acc fd = .error e := by
  intro fd
  induction fd with
  | nil => intro acc h; cases h
  | cons p rest ih =>
    intro acc hmem
    rcases List.mem_cons.mp hmem with rfl | hmem'
    · rcases hbad acc with ⟨e, he⟩
      exact ⟨e, by unfold buildStoredAux; rw [he]⟩
    · cases hs : storedStep dataKey extPre acc p with
      | error e => exact ⟨e, by unfold buildStoredAux; rw [hs]⟩
      | ok acc' =>
        rcases ih acc' hmem' with ⟨e, he⟩
        exact ⟨e, by unfold buildStoredAux; rw [hs]; exact he⟩

/-- A matching key for a non-`blob` name must hold a string parsing to a
JSON string, and a matching `blob` key must hold a `Blob`; otherwise
`storedStep` throws from any accumulator state. -/
theorem storedStep_bad {dataKey extPre k : String} {v : FDValue}
    {nm id : String}
    (hdk : k ≠ dataKey) (hmatch : matchExtToken extPre k = some (nm, id))
    (hbad : (nm = "blob" ∧ ∃ t, v = .text t) ∨
            (nm ≠ "blob" ∧ ∃ b, v = .blob b) ∨
            (nm ≠ "blob" ∧ ∃ t, v = .text t ∧
              ∀ s, jsonParse t ≠ some (JSON.str s))) :
    ∀ acc, ∃ e, storedStep dataKey extPre acc (k, v) = .error e := by
  intro acc
  unfold storedStep
  rw [if_neg hdk, hmatch]
  dsimp only
  rcases hbad with ⟨hnm, t, rfl⟩ | ⟨hnm, b, rfl⟩ | ⟨hnm, t, rfl, hparse⟩
  · rw [if_pos hnm]
    exact ⟨.expectedBlob k, rfl⟩
  · rw [if_neg hnm]
    exact ⟨.unexpectedValueType k, rfl⟩
  · rw [if_neg hnm]
    dsimp only
    cases hp : jsonParse t with
    | none => exact ⟨.parseExtFailed k, rfl⟩
    | some j =>
      cases j with
      | str s => exact absurd hp (hparse s)
      | num x => exact ⟨.parseExtFailed k, rfl⟩
      | bool b => exact ⟨.parseExtFailed k, rfl⟩
      | null => exact ⟨.parseExtFailed k, rfl⟩
      | arr xs => exact ⟨.parseExtFailed k, rfl⟩
      | obj es => exact ⟨.parseExtFailed k, rfl⟩

/-- Unfolding `deserialize` when validation throws. -/
theorem deserialize_eq_error_of_validate {fd : FormDataM}
    {exts : List Extension} {dataKey extPre : String} {e : Err}
    (hval : validateExtensions exts = .error e) :
    deserialize fd exts dataKey extPre = .error e := by
  unfold deserialize
  rw [hval]

/-- Unfolding `deserialize` when the data key is missing. -/
theorem deserialize_eq_noData_none {fd : FormDataM} {exts : List Extension}
    {dataKey extPre : String}
    (hval : validateExtensions exts = .ok ())
    (hget : fdGet fd dataKey = none) :
    deserialize fd exts dataKey extPre = .error .noData := by
  unfold deserialize
  rw [hval]
  dsimp only
  rw [hget]

/-- Unfolding `deserialize` when the data entry holds a `Blob`. -/
theorem deserialize_eq_noData_blob {fd : FormDataM} {exts : List Extension}
    {dataKey extPre : String} {b : List Nat}
    (hval : validateExtensions exts = .ok ())
    (hget : fdGet fd dataKey = some (.blob b)) :
    deserialize fd exts dataKey extPre = .error .noData := by
  unfold deserialize
  rw [hval]
  dsimp only
  rw [hget]

/-- Unfolding `deserialize` when the data entry is not valid JSON. -/
theorem deserialize_eq_parseDataFailed {fd : FormDataM}
    {exts : List Extension} {dataKey extPre : String} {t : TextVal}
    (hval : validateExtensions exts = .ok ())
    (hget : fdGet fd dataKey = some (.text t))
    (hp : jsonParse t = none) :
    deserialize fd exts dataKey extPre = .error .parseDataFailed := by
  unfold deserialize
  rw [hval]
  dsimp only
  rw [hget]
  dsimp only
  rw [hp]

/-- Unfolding `deserialize` when every stage up to the walk succeeds. -/
theorem deserialize_eq_decNode {fd : FormDataM} {exts : List Extension}
    {dataKey extPre : String} {t : TextVal} {parsed : JSON}
    {stored : List (String × StoredValue)}
    (hval : validateExtensions exts = .ok ())
    (hget : fdGet fd dataKey = some (.text t))
    (hp : jsonParse t = some parsed)
    (hbuild : buildStored fd dataKey extPre = .ok stored) :
    deserialize fd exts dataKey extPre =
      decNode ((blobExtension :: exts).map (fun e => (e.name, e)))
        stored extPre parsed := by
  unfold deserialize
  rw [hval]
  dsimp only
  rw [hget]
  dsimp only
  rw [hp]
  dsimp only
  rw [hbuild]

/-- Unfolding `deserialize` when the pre-pass throws. -/
theorem deserialize_eq_error_of_buildStored {fd : FormDataM}
    {exts : List Extension} {dataKey extPre : String} {t : TextVal}
    {parsed : JSON} {e : Err}
    (hval : validateExtensions exts = .ok ())
    (hget : fdGet fd dataKey = some (.text t))
    (hp : jsonParse t = some parsed)
    (hbuild : buildStored fd dataKey extPre = .error e) :
    deserialize fd exts dataKey extPre = .error e := by
  unfold deserialize
  rw [hval]
  dsimp only
  rw [hget]
  dsimp only
  rw [hp]
  dsimp only
  rw [hbuild]

/-- Claim C10: the decoder pre-processes every container entry whose key
matches the token pattern before walking the skeleton: a matching entry
whose stored value is not JSON text of a string (non-`blob` name) or not a
`Blob` (name `blob`) makes the whole decode fail, whatever the skeleton
contains. -/
theorem c10_strict_prepass (fd : FormDataM) (exts : List Extension)
    (dataKey extPre k : String) (v : FDValue) (nm id : String)
    (hmem : (k, v) ∈ fd) (hdk : k ≠ dataKey)
    (hmatch : matchExtToken extPre k = some (nm, id))
    (hbad : (nm = "blob" ∧ ∃ t, v = .text t) ∨
            (nm ≠ "blob" ∧ ∃ b, v = .blob b) ∨
            (nm ≠ "blob" ∧ ∃ t, v = .text t ∧
              ∀ s, jsonParse t ≠ some (JSON.str s))) :
    ∃ e, deserialize fd exts dataKey extPre = .error e := by
  cases hval : validateExtensions exts with
  | error e => exact ⟨e, by unfold deserialize; rw [hval]⟩
  | ok u =>
    obtain rfl : u = () := rfl
    cases hget : fdGet fd dataKey with
    | none =>
      exact ⟨.noData, by unfold deserialize; rw [hval]; dsimp only; rw [hget]⟩
    | some fv =>
      cases fv with
      | blob b =>
        exact ⟨.noData, by unfold deserialize; rw [hval]; dsimp only; rw [hget]⟩
      | text t =>
        cases hp : jsonParse t with
        | none =>
          refine ⟨.parseDataFailed, ?_⟩
          unfold deserialize
          rw [hval]
          dsimp only
          rw [hget]
          dsimp only
          rw [hp]
        | some parsed =>
          rcases buildStoredAux_error_of_mem
            (storedStep_bad hdk hmatch hbad) fd [] hmem with ⟨e, he⟩
          exact ⟨e, deserialize_eq_error_of_buildStored hval hget hp he⟩

/-- Witness for C10: a container whose skeleton is plain `null` but which
carries a matching key holding JSON text of a number fails to decode. -/
theorem c10_witness :
    ∃ e, deserialize
      [("$data", .text (.jsonOf .null)),
       ("$ext:aaa:1", .text (.jsonOf (.num 3)))] [] "$data" "$ext" =
        .error e :=
  c10_strict_prepass _ [] "$data" "$ext" "$ext:aaa:1"
    (.text (.jsonOf (.num 3))) "aaa" "1"
    (by simp) (by decide) (by decide)
    (Or.inr (Or.inr ⟨by decide, .jsonOf (.num 3), rfl,
      fun s h => by injection h with h'; cases h'⟩))

/-! ## Claim C8 — unrelated container entries are ignored -/

theorem fdGet_eq_none_of_ne {dataKey : String} :
    ∀ {extras : FormDataM}, (∀ p ∈ extras, p.1 ≠ dataKey) →
      fdGet extras dataKey = none := by
  intro extras
  induction extras with
  | nil => intro _; rfl
  | cons p rest ih =>
    intro h
    unfold fdGet
    rw [if_neg (h p (List.mem_cons_self p rest))]
    exact ih (fun q hq => h q (List.mem_cons_of_mem _ hq))

theorem fdGet_append_of_ne {dataKey : String} {extras : FormDataM}
    (hex : ∀ p ∈ extras, p.1 ≠ dataKey) :
    ∀ fd : FormDataM, fdGet (fd ++ extras) dataKey = fdGet fd dataKey := by
  intro fd
  induction fd with
  | nil =>
    simp only [List.nil_append]
    rw [fdGet_eq_none_of_ne hex]
    rfl
  | cons p rest ih =>
    show fdGet (p :: (rest ++ extras)) dataKey = fdGet (p :: rest) dataKey
    unfold fdGet
    by_cases hp : p.1 = dataKey
    · rw [if_pos hp, if_pos hp]
    · rw [if_neg hp, if_neg hp]
      exact ih

/-- Entries whose key is neither the data key nor token-shaped leave the
pre-pass state untouched. -/
theorem buildStoredAux_append_skipped {dataKey extPre : String}
    {extras : FormDataM}
    (hex : ∀ p ∈ extras, p.1 ≠ dataKey ∧ matchExtToken extPre p.1 = none) :
    ∀ (fd : FormDataM) (acc : List (String × StoredValue)),
      buildStoredAux dataKey extPre acc (fd ++ extras) =
        buildStoredAux dataKey extPre acc fd := by
  intro fd
  induction fd with
  | nil =>
    intro acc
    simp only [List.nil_append]
    show buildStoredAux dataKey extPre acc extras = .ok acc
    clear * - hex
    induction extras with
    | nil => rfl
    | cons p rest ih =>
      have hp := hex p (List.mem_cons_self p rest)
      have hstep : storedStep dataKey extPre acc p = .ok acc := by
        unfold storedStep
        rw [if_neg hp.1]
        obtain ⟨k, v⟩ := p
        rw [hp.2]
      unfold buildStoredAux
      rw [hstep]
      exact ih (fun q hq => hex q (List.mem_cons_of_mem _ hq))
  | cons p rest ih =>
    intro acc
    show buildStoredAux dataKey extPre acc (p :: (rest ++ extras)) = _
    unfold buildStoredAux
    cases hs : storedStep dataKey extPre acc p with
    | error e => rfl
    | ok acc' => exact ih acc'

/-- Claim C8: appending entries whose keys are neither the reserved data
key nor match the placeholder-token pattern does not change the result of
decoding. -/
theorem c8_extra_entries_ignored (fd extras : FormDataM)
    (exts : List Extension) (dataKey extPre : String)
    (hex : ∀ p ∈ extras, p.1 ≠ dataKey ∧ matchExtToken extPre p.1 = none) :
    deserialize (fd ++ extras) exts dataKey extPre =
      deserialize fd exts dataKey extPre := by
  cases hval : validateExtensions exts with
  | error e =>
    rw [deserialize_eq_error_of_validate hval,
      deserialize_eq_error_of_validate hval]
  | ok u =>
    obtain rfl : u = () := rfl
    have hg : fdGet (fd ++ extras) dataKey = fdGet fd dataKey :=
      fdGet_append_of_ne (fun p hp => (hex p hp).1) fd
    have hb : buildStored (fd ++ extras) dataKey extPre =
        buildStored fd dataKey extPre :=
      buildStoredAux_append_skipped hex fd []
    cases hget : fdGet fd dataKey with
    | none =>
      rw [deserialize_eq_noData_none hval (hg.trans hget),
        deserialize_eq_noData_none hval hget]
    | some fv =>
      cases fv with
      | blob b =>
        rw [deserialize_eq_noData_blob hval (hg.trans hget),
          deserialize_eq_noData_blob hval hget]
      | text t =>
        cases hp : jsonParse t with
        | none =>
          rw [deserialize_eq_parseDataFailed hval (hg.trans hget) hp,
            deserialize_eq_parseDataFailed hval hget hp]
        | some parsed =>
          cases hbs : buildStored fd dataKey extPre with
          | error e =>
            rw [deserialize_eq_error_of_buildStored hval (hg.trans hget) hp
                (hb.trans hbs),
              deserialize_eq_error_of_buildStored hval hget hp hbs]
          | ok stored =>
            rw [deserialize_eq_decNode hval (hg.trans hget) hp (hb.trans hbs),
              deserialize_eq_decNode hval hget hp hbs]

/-- Witness for C8 at a concrete container and metadata entry. -/
theorem c8_witness :
    deserialize ([("$data", .text (.jsonOf (.bool true)))] ++
        [("meta", .text (.nonJson "x"))]) [] "$data" "$ext" =
      deserialize [("$data", .text (.jsonOf (.bool true)))] [] "$data" "$ext" := by
  apply c8_extra_entries_ignored
  intro p hp
  rcases List.mem_cons.mp hp with rfl | h
  · exact ⟨by decide, by decide⟩
  · cases h

/-! ## Claim C1 — round trip on the pure fragment -/

mutual
/-- When no listed extension claims any node the encoder reaches, the
walker is the identity and mints nothing. -/
theorem encNode_untouched (l : List Extension) (pre : String)
    (gen : Nat → String) :
    ∀ v : JSValue, untouched l v = true →
      ∀ st : EncState, encNode l pre gen v st = (v, st)
  | .str s => fun hu st => by
    have hf : findExt l (.str s) = none := Option.isNone_iff_eq_none.mp hu
    simp [encNode, hf]
  | .num n => fun hu st => by
    have hf : findExt l (.num n) = none := Option.isNone_iff_eq_none.mp hu
    simp [encNode, hf]
  | .bool b => fun hu st => by
    have hf : findExt l (.bool b) = none := Option.isNone_iff_eq_none.mp hu
    simp [encNode, hf]
  | .null => fun _ _ => rfl
  | .undef => fun _ _ => rfl
  | .blob bs => fun hu st => by
    have hf : findExt l (.blob bs) = none := Option.isNone_iff_eq_none.mp hu
    simp [encNode, hf]
  | .exotic t p => fun hu st => by
    have hf : findExt l (.exotic t p) = none := Option.isNone_iff_eq_none.mp hu
    simp [encNode, hf]
  | .arr xs => fun hu st => by
    replace hu : ((findExt l (.arr xs)).isNone && untouchedL l xs) = true := hu
    rw [Bool.and_eq_true] at hu
    rcases hu with ⟨h1, h2⟩
    have hf : findExt l (.arr xs) = none := Option.isNone_iff_eq_none.mp h1
    have hrec := encList_untouched l pre gen xs h2 st
    simp [encNode, hf, hrec]
  | .obj es => fun hu st => by
    replace hu : ((findExt l (.obj es)).isNone && untouchedE l es) = true := hu
    rw [Bool.and_eq_true] at hu
    rcases hu with ⟨h1, h2⟩
    have hf : findExt l (.obj es) = none := Option.isNone_iff_eq_none.mp h1
    have hrec := encEntries_untouched l pre gen es h2 st
    simp [encNode, hf, hrec]

/-- `encNode_untouched` on an array spine. -/
theorem encList_untouched (l : List Extension) (pre : String)
    (gen : Nat → String) :
    ∀ xs : JSList, untouchedL l xs = true →
      ∀ st : EncState, encList l pre gen xs st = (xs, st)
  | .nil => fun _ _ => rfl
  | .cons x xs => fun hu st => by
    replace hu : (untouched l x && untouchedL l xs) = true := hu
    rw [Bool.and_eq_true] at hu
    rcases hu with ⟨h1, h2⟩
    have hx := encNode_untouched l pre gen x h1 st
    have hxs := encList_untouched l pre gen xs h2 st
    simp [encList, hx, hxs]

/-- `encNode_untouched` on object entries. -/
theorem encEntries_untouched (l : List Extension) (pre : String)
    (gen : Nat → String) :
    ∀ es : JSEntries, untouchedE l es = true →
      ∀ st : EncState, encEntries l pre gen es st = (es, st)
  | .nil => fun _ _ => rfl
  | .cons k x es => fun hu st => by
    replace hu : (untouched l x && untouchedE l es) = true := hu
    rw [Bool.and_eq_true] at hu
    rcases hu with ⟨h1, h2⟩
    have hx := encNode_untouched l pre gen x h1 st
    have hes := encEntries_untouched l pre gen es h2 st
    simp [encEntries, hx, hes]
end

theorem stringifyArr_cons_of_pure {x : JSValue} {xs : JSList}
    (hx : isPure x = true) :
    stringifyArr (.cons x xs) =
      match stringifyTree x, stringifyArr xs with
      | some y, some ys => some (.cons y ys)
      | _, _ => none := by
  cases x <;> first
    | rfl
    | (exact absurd hx (by simp [isPure]))

theorem stringifyObj_cons_of_pure {k : String} {x : JSValue} {es : JSEntries}
    (hx : isPure x = true) :
    stringifyObj (.cons k x es) =
      match stringifyTree x, stringifyObj es with
      | some y, some ys => some (.cons k y ys)
      | _, _ => none := by
  cases x <;> first
    | rfl
    | (exact absurd hx (by simp [isPure]))

mutual
/-- A pure, token-free value stringifies successfully and its parsed
skeleton decodes back to the same value under any extension map and side
table. -/
theorem pureRT (m : List (String × Extension))
    (stored : List (String × StoredValue)) (pre : String) :
    ∀ v : JSValue, isPure v = true → tokenFree pre v = true →
      ∃ j, stringifyTree v = some j ∧ decNode m stored pre j = .ok v
  | .str s => fun _ ht => by
    refine ⟨.str s, rfl, ?_⟩
    have hm : matchExtToken pre s = none := Option.isNone_iff_eq_none.mp ht
    unfold decNode
    rw [hm]
  | .num n => fun _ _ => ⟨.num n, rfl, rfl⟩
  | .bool b => fun _ _ => ⟨.bool b, rfl, rfl⟩
  | .null => fun _ _ => ⟨.null, rfl, rfl⟩
  | .undef => fun hp _ => absurd hp (by simp [isPure])
  | .blob bs => fun hp _ => absurd hp (by simp [isPure])
  | .exotic t p => fun hp _ => absurd hp (by simp [isPure])
  | .arr xs => fun hp ht => by
    rcases pureRTL m stored pre xs hp ht with ⟨js, hjs, hdec⟩
    refine ⟨.arr js, ?_, ?_⟩
    · show (stringifyArr xs).map JSON.arr = some (JSON.arr js)
      rw [hjs]
      rfl
    · unfold decNode
      rw [hdec]
  | .obj es => fun hp ht => by
    rcases pureRTE m stored pre es hp ht with ⟨fs, hfs, hdec⟩
    refine ⟨.obj fs, ?_, ?_⟩
    · show (stringifyObj es).map JSON.obj = some (JSON.obj fs)
      rw [hfs]
      rfl
    · unfold decNode
      rw [hdec]

/-- `pureRT` on an array spine. -/
theorem pureRTL (m : List (String × Extension))
    (stored : List (String × StoredValue)) (pre : String) :
    ∀ xs : JSList, isPureL xs = true → tokenFreeL pre xs = true →
      ∃ js, stringifyArr xs = some js ∧ decList m stored pre js = .ok xs
  | .nil => fun _ _ => ⟨.nil, rfl, rfl⟩
  | .cons x xs => fun hp ht => by
    replace hp : (isPure x && isPureL xs) = true := hp
    replace ht : (tokenFree pre x && tokenFreeL pre xs) = true := ht
    rw [Bool.and_eq_true] at hp ht
    rcases hp with ⟨hp1, hp2⟩
    rcases ht with ⟨ht1, ht2⟩
    rcases pureRT m stored pre x hp1 ht1 with ⟨y, hy, hdy⟩
    rcases pureRTL m stored pre xs hp2 ht2 with ⟨ys, hys, hdys⟩
    refine ⟨.cons y ys, ?_, ?_⟩
    · rw [stringifyArr_cons_of_pure hp1, hy, hys]
    · unfold decList
      rw [hdy, hdys]

/-- `pureRT` on object entries. -/
theorem pureRTE (m : List (String × Extension))
    (stored : List (String × StoredValue)) (pre : String) :
    ∀ es : JSEntries, isPureE es = true → tokenFreeE pre es = true →
      ∃ fs, stringifyObj es = some fs ∧ decEntries m stored pre fs = .ok es
  | .nil => fun _ _ => ⟨.nil, rfl, rfl⟩
  | .cons k x es => fun hp ht => by
    replace hp : (isPure x && isPureE es) = true := hp
    replace ht : (tokenFree pre x && tokenFreeE pre es) = true := ht
    rw [Bool.and_eq_true] at hp ht
    rcases hp with ⟨hp1, hp2⟩
    rcases ht with ⟨ht1, ht2⟩
    rcases pureRT m stored pre x hp1 ht1 with ⟨y, hy, hdy⟩
    rcases pureRTE m stored pre es hp2 ht2 with ⟨ys, hys, hdys⟩
    refine ⟨.cons k y ys, ?_, ?_⟩
    · rw [stringifyObj_cons_of_pure hp1, hy, hys]
    · unfold decEntries
      rw [hdy, hdys]
end

/-- Claim C1 counterexample: a string leaf that happens to match the
placeholder-token pattern is mistaken for a token on the way back: the
encoder passes `"$ext:blob:x"` through verbatim (no extension claims it,
the side table stays empty), but the decoder resolves it as a blob token
and fails with a missing payload instead of returning the value. -/
theorem c1_counterexample :
    serialize (.str "$ext:blob:x") [] gen0 "$data" "$ext" =
      .ok [("$data", .text (.jsonOf (.str "$ext:blob:x")))] ∧
    deserialize [("$data", .text (.jsonOf (.str "$ext:blob:x")))] []
        "$data" "$ext" =
      .error (.missingPayload "$ext:blob:x") :=
  ⟨rfl, rfl⟩

/-- Claim C1 (amended): for every value built only from JSON primitives,
arrays and plain mappings, none of whose string leaves matches the
placeholder-token pattern and none of whose nodes is claimed by a listed
extension, and for every extension list the validator accepts (including
the empty list), decoding the encoded container returns the value
unchanged. -/
theorem c1_roundtrip (v : JSValue) (exts : List Extension)
    (gen : Nat → String)
    (hp : isPure v = true)
    (hu : untouched (blobExtension :: exts) v = true)
    (ht : tokenFree "$ext" v = true)
    (hval : validateExtensions exts = .ok ()) :
    ∃ fd, serialize v exts gen "$data" "$ext" = .ok fd ∧
      deserialize fd exts "$data" "$ext" = .ok v := by
  have hup : ¬ (v.isUndef = true) := by
    cases v <;> simp [JSValue.isUndef] <;> exact absurd hp (by simp [isPure])
  have henc : encNode (blobExtension :: exts) "$ext" gen v ⟨0, []⟩ =
      (v, ⟨0, []⟩) :=
    encNode_untouched (blobExtension :: exts) "$ext" gen v hu ⟨0, []⟩
  rcases pureRT ((blobExtension :: exts).map (fun e => (e.name, e))) [] "$ext"
      v hp ht with ⟨j, hj, hdec⟩
  refine ⟨[("$data", .text (.jsonOf j))], ?_, ?_⟩
  · unfold serialize
    rw [if_neg hup, hval]
    dsimp only
    rw [henc]
    dsimp only
    rw [hj]
    rfl
  · have hget : fdGet [("$data", FDValue.text (.jsonOf j))] "$data" =
        some (.text (.jsonOf j)) := rfl
    have hbuild : buildStored [("$data", FDValue.text (.jsonOf j))]
        "$data" "$ext" = .ok [] := rfl
    rw [deserialize_eq_decNode hval hget rfl hbuild]
    exact hdec

/-- Witness for C1 (amended) at a small concrete object. -/
theorem c1_witness :
    ∃ fd, serialize
        (.obj (.cons "name" (.str "John")
          (.cons "tags" (.arr (.cons (.num 1) (.cons .null .nil)))
            (.cons "on" (.bool true) .nil)))) [] gen0 "$data" "$ext" = .ok fd ∧
      deserialize fd [] "$data" "$ext" =
        .ok (.obj (.cons "name" (.str "John")
          (.cons "tags" (.arr (.cons (.num 1) (.cons .null .nil)))
            (.cons "on" (.bool true) .nil)))) :=
  c1_roundtrip _ [] gen0 rfl rfl rfl rfl

/-! ## Claim C2 — delivery of the stored form to the extension -/

/-- A fold that looks up a key it never meets keeps its accumulator. -/
theorem mapGet_foldl_stable {α : Type} (k : String) :
    ∀ (ps : List (String × α)) (init : Option α),
      (∀ p ∈ ps, p.1 ≠ k) →
        ps.foldl (fun acc p => if p.1 = k then some p.2 else acc) init = init := by
  intro ps
  induction ps with
  | nil => intro init _; rfl
  | cons p rest ih =>
    intro init h
    show List.foldl _ (if p.1 = k then some p.2 else init) rest = init
    rw [if_neg (h p (List.mem_cons_self p rest))]
    exact ih init (fun q hq => h q (List.mem_cons_of_mem _ hq))

/-- With pairwise-distinct names, looking a member's name up in the
later-wins map resolves to that member, whatever came before. -/
theorem mapGet_foldl_of_mem {exts : List Extension} {E : Extension}
    (hnd : (exts.map (fun e => e.name)).Nodup) (hmem : E ∈ exts) :
    ∀ init : Option Extension,
      (exts.map (fun e => (e.name, e))).foldl
        (fun acc p => if p.1 = E.name then some p.2 else acc) init = some E := by
  induction exts with
  | nil => cases hmem
  | cons f rest ih =>
    intro init
    show List.foldl _ (if f.name = E.name then some f else init) _ = some E
    rcases List.mem_cons.mp hmem with rfl | hmem'
    · rw [if_pos rfl]
      apply mapGet_foldl_stable
      intro p hp
      rcases List.mem_map.mp hp with ⟨g, hg, rfl⟩
      intro hgE
      refine (List.nodup_cons.mp hnd).1 ?_
      show E.name ∈ List.map (fun e => e.name) rest
      rw [← show g.name = E.name from hgE]
      exact List.mem_map.mpr ⟨g, hg, rfl⟩
    · have hne : f.name ≠ E.name := by
        intro hfe
        refine (List.nodup_cons.mp hnd).1 ?_
        show f.name ∈ List.map (fun e => e.name) rest
        rw [hfe]
        exact List.mem_map.mpr ⟨E, hmem', rfl⟩
      rw [if_neg hne]
      exact ih (List.nodup_cons.mp hnd).2 hmem' init

/-- Resolution of the dispatched extension in the decoder's map: a
validated caller extension resolves to itself (even when named `blob`,
since later entries win), and the built-in head resolves to itself when no
caller extension shadows its name. -/
theorem mapGet_resolves {exts : List Extension} {E : Extension}
    (hval : validateExtensions exts = .ok ())
    (hE : E ∈ exts ∨ (E = blobExtension ∧ ∀ F ∈ exts, F.name ≠ "blob")) :
    mapGet ((blobExtension :: exts).map (fun e => (e.name, e))) E.name =
      some E := by
  have hnd := (validateExtensions_ok_iff.mp hval).2
  unfold mapGet
  show List.foldl _ (if blobExtension.name = E.name then some blobExtension
    else none) _ = some E
  rcases hE with hmem | ⟨rfl, hshadow⟩
  · by_cases hb : blobExtension.name = E.name
    · rw [if_pos hb]
      exact mapGet_foldl_of_mem hnd hmem _
    · rw [if_neg hb]
      exact mapGet_foldl_of_mem hnd hmem _
  · rw [if_pos rfl]
    apply mapGet_foldl_stable
    intro p hp
    rcases List.mem_map.mp hp with ⟨g, hg, rfl⟩
    exact hshadow g hg

/-- A validated extension name passes the token grammar: nonempty and
colon-free. -/
theorem goodName_token {s : String} (h : goodName s) :
    s ≠ "" ∧ containsColon s = false := by
  refine ⟨?_, h.1⟩
  intro hs
  have := h.2.1
  rw [hs] at this
  exact absurd this (by decide)

/-- Claim C2 counterexample: a custom extension whose `serialize` produces
a binary payload is never delivered back — the decoder's pre-pass rejects a
`Blob` stored under a non-`blob`-named key, so `deserialize` is never
invoked and decoding fails. -/
theorem c2_counterexample :
    serialize (.exotic "y" "p") [binPayloadExt] (fun _ => "0") "$data" "$ext" =
      .ok [("$data", .text (.jsonOf (.str "$ext:bin:0"))),
           ("$ext:bin:0", .blob [1, 2])] ∧
    deserialize [("$data", .text (.jsonOf (.str "$ext:bin:0"))),
           ("$ext:bin:0", .blob [1, 2])] [binPayloadExt] "$data" "$ext" =
      .error (.unexpectedValueType "$ext:bin:0") :=
  ⟨rfl, rfl⟩

/-- Claim C2 (amended): when the dispatch loop selects extension `E` for
the encoded value, the id supply yields a wellformed id, `E` is resolvable
in the decoder's map (a validated caller extension, or the built-in blob
extension unshadowed by name), and the payload kind fits the name
(textual for non-`blob` names, binary for `blob`), then decoding the
encoded container emits exactly `E.deserialize` applied to the stored form
`E.serialize` produced: strings come back as the same string, binary
payloads as the same raw bytes. -/
theorem c2_extension_delivery (v : JSValue) (exts : List Extension)
    (E : Extension) (gen : Nat → String)
    (hval : validateExtensions exts = .ok ())
    (hnn : v.isNullish = false)
    (hfind : findExt (blobExtension :: exts) v = some E)
    (hE : E ∈ exts ∨ (E = blobExtension ∧ ∀ F ∈ exts, F.name ≠ "blob"))
    (hkindS : ∀ s, E.serialize v = .str s → E.name ≠ "blob")
    (hkindB : ∀ b, E.serialize v = .blob b → E.name = "blob")
    (hid : gen 0 ≠ "" ∧ (gen 0).data.any isLineTerm = false) :
    ∃ fd, serialize v exts gen "$data" "$ext" = .ok fd ∧
      deserialize fd exts "$data" "$ext" =
        .ok (E.deserialize (E.serialize v)) := by
  have hgood : E.name ≠ "" ∧ containsColon E.name = false := by
    rcases hE with hmem | ⟨rfl, -⟩
    · exact goodName_token ((validateExtensions_ok_iff.mp hval).1 E hmem)
    · exact ⟨by decide, by decide⟩
  set key := holeKey "$ext" E.name (gen 0) with hkeydef
  have hkeymatch : matchExtToken "$ext" key = some (E.name, gen 0) :=
    matchExtToken_holeKey hgood.1 hgood.2 hid.1 hid.2
  have hkeyne : key ≠ "$data" := holeKey_ne_dataKey _ _
  have hup : ¬ (v.isUndef = true) := by
    intro h
    cases v <;> (try cases h) <;> exact absurd hnn (by decide)
  have henc : encNode (blobExtension :: exts) "$ext" gen v ⟨0, []⟩ =
      (.str key, ⟨1, [(key, E.serialize v)]⟩) := by
    rw [encNode_fired hnn hfind]
    rfl
  have hfd : serialize v exts gen "$data" "$ext" =
      .ok [("$data", .text (.jsonOf (.str key))),
           (key, storedToFD (E.serialize v))] := by
    unfold serialize
    rw [if_neg hup, hval]
    dsimp only
    rw [henc]
    dsimp only
    show Except.ok (fdSet (fdSet [] "$data"
      (FDValue.text (TextVal.jsonOf (JSON.str key)))) key
      (storedToFD (E.serialize v))) = _
    have h2 : fdSet (fdSet [] "$data"
        (FDValue.text (TextVal.jsonOf (JSON.str key)))) key
        (storedToFD (E.serialize v)) =
        [("$data", FDValue.text (TextVal.jsonOf (JSON.str key))),
         (key, storedToFD (E.serialize v))] := by
      show fdSet [("$data", FDValue.text (TextVal.jsonOf (JSON.str key)))] key
          (storedToFD (E.serialize v)) = _
      unfold fdSet
      dsimp only
      rw [if_neg (show ¬ (("$data" : String) = key) from fun h => hkeyne h.symm)]
      rfl
    rw [h2]
  refine ⟨_, hfd, ?_⟩
  have hget : fdGet [("$data", FDValue.text (.jsonOf (.str key))),
      (key, storedToFD (E.serialize v))] "$data" =
      some (.text (.jsonOf (.str key))) := rfl
  have hbuild : buildStored [("$data", FDValue.text (.jsonOf (.str key))),
      (key, storedToFD (E.serialize v))] "$data" "$ext" =
      .ok [(key, E.serialize v)] := by
    show buildStoredAux "$data" "$ext" [] _ = _
    unfold buildStoredAux
    rw [show storedStep "$data" "$ext" []
        ("$data", FDValue.text (.jsonOf (.str key))) = .ok [] from rfl]
    unfold buildStoredAux
    have hstep : storedStep "$data" "$ext" [] (key, storedToFD (E.serialize v)) =
        .ok [(key, E.serialize v)] := by
      unfold storedStep
      rw [if_neg hkeyne, hkeymatch]
      dsimp only
      cases hsv : E.serialize v with
      | str s =>
        rw [if_neg (hkindS s hsv)]
        rfl
      | blob b =>
        rw [if_pos (hkindB b hsv)]
        rfl
    rw [hstep]
    rfl
  rw [deserialize_eq_decNode hval hget rfl hbuild]
  unfold decNode
  rw [hkeymatch]
  dsimp only
  rw [show mapGet ((blobExtension :: exts).map (fun e => (e.name, e))) E.name =
    some E from mapGet_resolves hval hE]
  rw [show mapGet [(key, E.serialize v)] key = some (E.serialize v) from by
    unfold mapGet
    show (if key = key then some (E.serialize v) else none) = _
    rw [if_pos rfl]]

/-- Witness for C2 (amended): a date-like extension at the top level. -/
theorem c2_witness :
    ∃ fd, serialize (.exotic "date" "2023") [dateLikeExt] gen0
        "$data" "$ext" = .ok fd ∧
      deserialize fd [dateLikeExt] "$data" "$ext" =
        .ok (dateLikeExt.deserialize (dateLikeExt.serialize
          (.exotic "date" "2023"))) :=
  c2_extension_delivery (.exotic "date" "2023") [dateLikeExt] dateLikeExt gen0
    rfl rfl rfl (Or.inl (List.mem_cons_self _ _))
    (fun _ _ => by decide) (fun b h => StoredValue.noConfusion h)
    ⟨by decide, by decide⟩

/-! ## Container and hole bookkeeping lemmas -/

theorem mem_mapSet {α : Type} {kv : String × α} {k : String} {v : α} :
    ∀ {m : List (String × α)}, kv ∈ mapSet m k v → kv = (k, v) ∨ kv ∈ m := by
  intro m
  induction m with
  | nil => intro h; simpa [mapSet] using h
  | cons p rest ih =>
    intro h
    unfold mapSet at h
    by_cases hp : p.1 = k
    · rw [if_pos hp] at h
      rcases List.mem_cons.mp h with rfl | h'
      · exact Or.inl rfl
      · exact Or.inr (List.mem_cons_of_mem _ h')
    · rw [if_neg hp] at h
      rcases List.mem_cons.mp h with rfl | h'
      · exact Or.inr (List.mem_cons_self _ _)
      · rcases ih h' with h'' | h''
        · exact Or.inl h''
        · exact Or.inr (List.mem_cons_of_mem _ h'')

theorem mem_fdDrop {kv : String × FDValue} {k : String} :
    ∀ {fd : FormDataM}, kv ∈ fdDrop fd k → kv ∈ fd := by
  intro fd
  induction fd with
  | nil => intro h; cases h
  | cons p rest ih =>
    intro h
    unfold fdDrop at h
    by_cases hp : p.1 = k
    · rw [if_pos hp] at h
      exact List.mem_cons_of_mem _ (ih h)
    · rw [if_neg hp] at h
      rcases List.mem_cons.mp h with rfl | h'
      · exact List.mem_cons_self _ _
      · exact List.mem_cons_of_mem _ (ih h')

theorem mem_fdSet {kv : String × FDValue} {k : String} {v : FDValue} :
    ∀ {fd : FormDataM}, kv ∈ fdSet fd k v → kv = (k, v) ∨ kv ∈ fd := by
  intro fd
  induction fd with
  | nil => intro h; simpa [fdSet] using h
  | cons p rest ih =>
    intro h
    unfold fdSet at h
    by_cases hp : p.1 = k
    · rw [if_pos hp] at h
      rcases List.mem_cons.mp h with rfl | h'
      · exact Or.inl rfl
      · exact Or.inr (List.mem_cons_of_mem _ (mem_fdDrop h'))
    · rw [if_neg hp] at h
      rcases List.mem_cons.mp h with rfl | h'
      · exact Or.inr (List.mem_cons_self _ _)
      · rcases ih h' with h'' | h''
        · exact Or.inl h''
        · exact Or.inr (List.mem_cons_of_mem _ h'')

/-- Every entry of the container built from the holes list is the base
entry or the image of a hole. -/
theorem mem_foldl_fdSet {kv : String × FDValue} :
    ∀ (holes : List (String × StoredValue)) (base : FormDataM),
      kv ∈ holes.foldl (fun fd p => fdSet fd p.1 (storedToFD p.2)) base →
        kv ∈ base ∨ ∃ p ∈ holes, kv = (p.1, storedToFD p.2) := by
  intro holes
  induction holes with
  | nil => intro base h; exact Or.inl h
  | cons q rest ih =>
    intro base h
    rcases ih (fdSet base q.1 (storedToFD q.2)) h with h' | ⟨p, hp, rfl⟩
    · rcases mem_fdSet h' with rfl | h''
      · exact Or.inr ⟨q, List.mem_cons_self _ _, rfl⟩
      · exact Or.inl h''
    · exact Or.inr ⟨p, List.mem_cons_of_mem _ hp, rfl⟩

theorem fdGet_cons (p : String × FDValue) (rest : FormDataM) (dk : String) :
    fdGet (p :: rest) dk = if p.1 = dk then some p.2 else fdGet rest dk := by
  show (if p.1 = dk then some p.2 else fdGet rest dk) = _
  rfl

theorem fdGet_fdDrop_ne {k dk : String} (h : k ≠ dk) :
    ∀ fd : FormDataM, fdGet (fdDrop fd k) dk = fdGet fd dk := by
  intro fd
  induction fd with
  | nil => rfl
  | cons p rest ih =>
    unfold fdDrop
    by_cases hp : p.1 = k
    · rw [if_pos hp, ih, fdGet_cons,
        if_neg (show ¬ (p.1 = dk) by rw [hp]; exact h)]
    · rw [if_neg hp, fdGet_cons, fdGet_cons]
      by_cases hpd : p.1 = dk
      · rw [if_pos hpd, if_pos hpd]
      · rw [if_neg hpd, if_neg hpd]
        exact ih

theorem fdGet_fdSet_ne {k dk : String} {v : FDValue} (h : k ≠ dk) :
    ∀ fd : FormDataM, fdGet (fdSet fd k v) dk = fdGet fd dk := by
  intro fd
  induction fd with
  | nil =>
    show fdGet [(k, v)] dk = none
    rw [fdGet_cons, if_neg h]
    rfl
  | cons p rest ih =>
    unfold fdSet
    by_cases hp : p.1 = k
    · rw [if_pos hp, fdGet_cons, fdGet_cons,
        if_neg (show ¬ ((k, v).1 = dk) from h),
        if_neg (show ¬ (p.1 = dk) by rw [hp]; exact h)]
      exact fdGet_fdDrop_ne h rest
    · rw [if_neg hp, fdGet_cons, fdGet_cons]
      by_cases hpd : p.1 = dk
      · rw [if_pos hpd, if_pos hpd]
      · rw [if_neg hpd, if_neg hpd]
        exact ih

/-- Storing holes whose keys avoid the data key leaves the data entry
untouched. -/
theorem fdGet_foldl_fdSet_ne {dk : String} :
    ∀ (holes : List (String × StoredValue)) (base : FormDataM),
      (∀ p ∈ holes, p.1 ≠ dk) →
      fdGet (holes.foldl (fun fd p => fdSet fd p.1 (storedToFD p.2)) base) dk =
        fdGet base dk := by
  intro holes
  induction holes with
  | nil => intro base _; rfl
  | cons q rest ih =>
    intro base h
    show fdGet (rest.foldl _ (fdSet base q.1 (storedToFD q.2))) dk = _
    rw [ih _ (fun p hp => h p (List.mem_cons_of_mem _ hp)),
      fdGet_fdSet_ne (h q (List.mem_cons_self q rest)) base]

mutual
/-- Every hole the encoder adds is keyed by a minted reference key. -/
theorem encNode_holes_keys (l : List Extension) (pre : String)
    (gen : Nat → String) :
    ∀ (v : JSValue) (st : EncState) (kv : String × StoredValue),
      kv ∈ (encNode l pre gen v st).2.holes →
        kv ∈ st.holes ∨ ∃ n i, kv.1 = holeKey pre n i
  | .str s => fun st kv h => by
    revert h
    unfold encNode
    cases hf : findExt l (.str s) with
    | none => exact fun h => Or.inl h
    | some e =>
      intro h
      rcases mem_mapSet h with rfl | h'
      · exact Or.inr ⟨e.name, gen st.ctr, rfl⟩
      · exact Or.inl h'
  | .num n => fun st kv h => by
    revert h
    unfold encNode
    cases hf : findExt l (.num n) with
    | none => exact fun h => Or.inl h
    | some e =>
      intro h
      rcases mem_mapSet h with rfl | h'
      · exact Or.inr ⟨e.name, gen st.ctr, rfl⟩
      · exact Or.inl h'
  | .bool b => fun st kv h => by
    revert h
    unfold encNode
    cases hf : findExt l (.bool b) with
    | none => exact fun h => Or.inl h
    | some e =>
      intro h
      rcases mem_mapSet h with rfl | h'
      · exact Or.inr ⟨e.name, gen st.ctr, rfl⟩
      · exact Or.inl h'
  | .null => fun _ _ h => Or.inl h
  | .undef => fun _ _ h => Or.inl h
  | .blob bs => fun st kv h => by
    revert h
    unfold encNode
    cases hf : findExt l (.blob bs) with
    | none => exact fun h => Or.inl h
    | some e =>
      intro h
      rcases mem_mapSet h with rfl | h'
      · exact Or.inr ⟨e.name, gen st.ctr, rfl⟩
      · exact Or.inl h'
  | .exotic t p => fun st kv h => by
    revert h
    unfold encNode
    cases hf : findExt l (.exotic t p) with
    | none => exact fun h => Or.inl h
    | some e =>
      intro h
      rcases mem_mapSet h with rfl | h'
      · exact Or.inr ⟨e.name, gen st.ctr, rfl⟩
      · exact Or.inl h'
  | .arr xs => fun st kv h => by
    revert h
    unfold encNode
    cases hf : findExt l (.arr xs) with
    | none => exact fun h => encList_holes_keys l pre gen xs st kv h
    | some e =>
      intro h
      rcases mem_mapSet h with rfl | h'
      · exact Or.inr ⟨e.name, gen st.ctr, rfl⟩
      · exact Or.inl h'
  | .obj es => fun st kv h => by
    revert h
    unfold encNode
    cases hf : findExt l (.obj es) with
    | none => exact fun h => encEntries_holes_keys l pre gen es st kv h
    | some e =>
      intro h
      rcases mem_mapSet h with rfl | h'
      · exact Or.inr ⟨e.name, gen st.ctr, rfl⟩
      · exact Or.inl h'

/-- `encNode_holes_keys` on an array spine. -/
theorem encList_holes_keys (l : List Extension) (pre : String)
    (gen : Nat → String) :
    ∀ (xs : JSList) (st : EncState) (kv : String × StoredValue),
      kv ∈ (encList l pre gen xs st).2.holes →
        kv ∈ st.holes ∨ ∃ n i, kv.1 = holeKey pre n i
  | .nil => fun _ _ h => Or.inl h
  | .cons x xs => fun st kv h => by
    rcases encList_holes_keys l pre gen xs (encNode l pre gen x st).2 kv h with
      h' | h'
    · exact encNode_holes_keys l pre gen x st kv h'
    · exact Or.inr h'

/-- `encNode_holes_keys` on object entries. -/
theorem encEntries_holes_keys (l : List Extension) (pre : String)
    (gen : Nat → String) :
    ∀ (es : JSEntries) (st : EncState) (kv : String × StoredValue),
      kv ∈ (encEntries l pre gen es st).2.holes →
        kv ∈ st.holes ∨ ∃ n i, kv.1 = holeKey pre n i
  | .nil => fun _ _ h => Or.inl h
  | .cons k x es => fun st kv h => by
    rcases encEntries_holes_keys l pre gen es (encNode l pre gen x st).2 kv h with
      h' | h'
    · exact encNode_holes_keys l pre gen x st kv h'
    · exact Or.inr h'
end

/-! ## Claim C6 — omission of absent-valued keys -/

/-- The encoder's object walk assigns exactly the original keys. -/
theorem encEntries_keys (l : List Extension) (pre : String)
    (gen : Nat → String) :
    ∀ (es : JSEntries) (st : EncState),
      (encEntries l pre gen es st).1.keys = es.keys
  | .nil => fun _ => rfl
  | .cons k x tail => fun st => by
    show JSEntries.keys (.cons k (encNode l pre gen x st).1 _) = _
    unfold JSEntries.keys
    rw [encEntries_keys l pre gen tail (encNode l pre gen x st).2]

/-- An entry whose value is `undefined` is still present, with value
`undefined`, after the encoder's walk. -/
theorem encEntries_undef_mem (l : List Extension) (pre : String)
    (gen : Nat → String) {k : String} :
    ∀ (es : JSEntries) (st : EncState),
      (k, JSValue.undef) ∈ es.toList →
        (k, JSValue.undef) ∈ (encEntries l pre gen es st).1.toList
  | .nil => fun _ h => by cases h
  | .cons k' x tail => fun st h => by
    rcases List.mem_cons.mp h with heq | h'
    · injection heq with h1 h2
      subst h1
      have hx : x = JSValue.undef := h2.symm
      subst hx
      show (k, JSValue.undef) ∈
        ((k, (encNode l pre gen JSValue.undef st).1) :: _)
      exact List.mem_cons_self _ _
    · show (k, JSValue.undef) ∈ ((k', (encNode l pre gen x st).1) :: _)
      exact List.mem_cons_of_mem _
        (encEntries_undef_mem l pre gen tail (encNode l pre gen x st).2 h')

theorem stringifyObj_cons_of_not_undef {k : String} {x : JSValue}
    {es : JSEntries} (hx : x.isUndef = false) :
    stringifyObj (.cons k x es) =
      match stringifyTree x, stringifyObj es with
      | some y, some ys => some (.cons k y ys)
      | _, _ => none := by
  cases x <;> first
    | rfl
    | (exact absurd hx (by simp [JSValue.isUndef]))

theorem stringifyArr_cons_of_not_undef {x : JSValue} {xs : JSList}
    (hx : x.isUndef = false) :
    stringifyArr (.cons x xs) =
      match stringifyTree x, stringifyArr xs with
      | some y, some ys => some (.cons y ys)
      | _, _ => none := by
  cases x <;> first
    | rfl
    | (exact absurd hx (by simp [JSValue.isUndef]))

/-- Membership of an entry puts its key among the keys. -/
theorem mem_keys_of_mem_toList {k : String} {v : JSValue} :
    ∀ {es : JSEntries}, (k, v) ∈ es.toList → k ∈ es.keys
  | .nil => fun h => by cases h
  | .cons k2 x2 t2 => fun h => by
    rcases List.mem_cons.mp h with heq | h2
    · injection heq with ha hb
      subst ha
      exact List.mem_cons_self _ _
    · exact List.mem_cons_of_mem _ (mem_keys_of_mem_toList h2)

/-- Keys of the stringified object come from the input object. -/
theorem stringifyObj_keys_sub :
    ∀ {es : JSEntries} {js : JSONEntries}, stringifyObj es = some js →
      ∀ k ∈ js.keys, k ∈ es.keys
  | .nil => fun h => by
    injection h with h'
    subst h'
    intro k hk
    cases hk
  | .cons k' x tail => fun h k hk => by
    by_cases hx : x.isUndef = true
    · have hxe : x = JSValue.undef := by
        cases x <;> first | rfl | (exact absurd hx (by simp [JSValue.isUndef]))
      subst hxe
      have h' : stringifyObj tail = some _ := h
      exact List.mem_cons_of_mem _ (stringifyObj_keys_sub h' k hk)
    · rw [stringifyObj_cons_of_not_undef (by simpa using hx)] at h
      cases hy : stringifyTree x with
      | none => rw [hy] at h; cases h
      | some y =>
        rw [hy] at h
        cases hys : stringifyObj tail with
        | none => rw [hys] at h; cases h
        | some ys =>
          rw [hys] at h
          injection h with h'
          subst h'
          rcases List.mem_cons.mp hk with rfl | hk'
          · exact List.mem_cons_self _ _
          · exact List.mem_cons_of_mem _ (stringifyObj_keys_sub hys k hk')

/-- With unique keys, an `undefined`-valued entry's key does not survive
stringification. -/
theorem stringifyObj_drops_undef :
    ∀ {es : JSEntries} {js : JSONEntries} {k : String},
      es.keys.Nodup → (k, JSValue.undef) ∈ es.toList →
      stringifyObj es = some js → k ∉ js.keys
  | .nil => fun _ hmem => by cases hmem
  | .cons k' x tail => fun hnd hmem h => by
    have hnd' : tail.keys.Nodup := (List.nodup_cons.mp hnd).2
    rcases List.mem_cons.mp hmem with heq | hmem'
    · injection heq with h1 h2
      subst h1
      have hx : x = JSValue.undef := h2.symm
      subst hx
      have h' : stringifyObj tail = some _ := h
      intro hk
      exact (List.nodup_cons.mp hnd).1 (stringifyObj_keys_sub h' _ hk)
    · rename_i k
      have hkk : k ≠ k' := by
        intro hkeq
        subst hkeq
        exact (List.nodup_cons.mp hnd).1 (mem_keys_of_mem_toList hmem')
      by_cases hx : x.isUndef = true
      · have hxe : x = JSValue.undef := by
          cases x <;> first | rfl | (exact absurd hx (by simp [JSValue.isUndef]))
        subst hxe
        exact stringifyObj_drops_undef hnd' hmem' h
      · rw [stringifyObj_cons_of_not_undef (by simpa using hx)] at h
        cases hy : stringifyTree x with
        | none => rw [hy] at h; cases h
        | some y =>
          rw [hy] at h
          cases hys : stringifyObj tail with
          | none => rw [hys] at h; cases h
          | some ys =>
            rw [hys] at h
            injection h with h'
            subst h'
            intro hk
            rcases List.mem_cons.mp hk with rfl | hk'
            · exact hkk rfl
            · exact stringifyObj_drops_undef hnd' hmem' hys hk'

/-- The decoder's object walk preserves keys exactly. -/
theorem decEntries_keys {m : List (String × Extension)}
    {stored : List (String × StoredValue)} {pre : String} :
    ∀ {js : JSONEntries} {rs : JSEntries},
      decEntries m stored pre js = .ok rs → rs.keys = js.keys
  | .nil => fun h => by
    injection h with h'
    subst h'
    rfl
  | .cons k x tail => fun h => by
    unfold decEntries at h
    cases hd : decNode m stored pre x with
    | error e => rw [hd] at h; cases h
    | ok y =>
      rw [hd] at h
      cases hds : decEntries m stored pre tail with
      | error e => rw [hds] at h; cases h
      | ok ys =>
        rw [hds] at h
        injection h with h'
        subst h'
        show (k :: ys.keys : List String) = k :: tail.keys
        rw [decEntries_keys hds]

/-- Claim C6: encoding a mapping with a key whose value is `undefined`
produces a stored skeleton without that key, and any successful decode of
the container (with any extension list) yields a mapping without that key
— it is neither reintroduced nor turned into `null`. -/
theorem c6_omission (exts : List Extension) (gen : Nat → String)
    (es : JSEntries) (k : String)
    (hmem : (k, JSValue.undef) ∈ es.toList)
    (hnodup : es.keys.Nodup)
    (hfire : findExt (blobExtension :: exts) (.obj es) = none) :
    ∀ fd, serialize (.obj es) exts gen "$data" "$ext" = .ok fd →
      (∃ js, fdGet fd "$data" = some (.text (.jsonOf (.obj js))) ∧
        k ∉ js.keys) ∧
      ∀ (exts₂ : List Extension) (w : JSValue),
        deserialize fd exts₂ "$data" "$ext" = .ok w →
          ∃ rs, w = .obj rs ∧ k ∉ rs.keys := by
  intro fd hser
  unfold serialize at hser
  rw [if_neg (show ¬ ((JSValue.obj es).isUndef = true) from fun h => by cases h)]
    at hser
  cases hval : validateExtensions exts with
  | error e => rw [hval] at hser; cases hser
  | ok u =>
    obtain rfl : u = () := rfl
    rw [hval] at hser
    dsimp only at hser
    rw [show encNode (blobExtension :: exts) "$ext" gen (.obj es) ⟨0, []⟩ =
        (let r := encEntries (blobExtension :: exts) "$ext" gen es ⟨0, []⟩
         (.obj r.1, r.2)) from by unfold encNode; rw [hfire]] at hser
    dsimp only at hser
    set r := encEntries (blobExtension :: exts) "$ext" gen es ⟨0, []⟩ with hrdef
    cases hso : stringifyObj r.1 with
    | none =>
      rw [show stringifyTree (.obj r.1) = none from by
        show (stringifyObj r.1).map JSON.obj = none
        rw [hso]; rfl] at hser
      cases hser
    | some js =>
      rw [show stringifyTree (.obj r.1) = some (.obj js) from by
        show (stringifyObj r.1).map JSON.obj = some (.obj js)
        rw [hso]; rfl] at hser
      dsimp only at hser
      injection hser with hfd
      have hkeysr : r.1.keys = es.keys := encEntries_keys _ _ _ es ⟨0, []⟩
      have hmemr : (k, JSValue.undef) ∈ r.1.toList :=
        encEntries_undef_mem _ _ _ es ⟨0, []⟩ hmem
      have hkabs : k ∉ js.keys :=
        stringifyObj_drops_undef (hkeysr ▸ hnodup) hmemr hso
      have hholes : ∀ p ∈ r.2.holes, p.1 ≠ "$data" := by
        intro p hp
        rcases encEntries_holes_keys (blobExtension :: exts) "$ext" gen es
            ⟨0, []⟩ p hp with h' | ⟨n, i, hki⟩
        · cases h'
        · rw [hki]
          exact holeKey_ne_dataKey n i
      have hget : fdGet fd "$data" = some (.text (.jsonOf (.obj js))) := by
        rw [← hfd]
        rw [fdGet_foldl_fdSet_ne r.2.holes _ hholes]
        rfl
      refine ⟨⟨js, hget, hkabs⟩, ?_⟩
      intro exts₂ w hdes
      cases hval₂ : validateExtensions exts₂ with
      | error e =>
        rw [deserialize_eq_error_of_validate hval₂] at hdes
        cases hdes
      | ok u₂ =>
        obtain rfl : u₂ = () := rfl
        cases hbs : buildStored fd "$data" "$ext" with
        | error e =>
          rw [deserialize_eq_error_of_buildStored hval₂ hget rfl hbs] at hdes
          cases hdes
        | ok stored =>
          rw [deserialize_eq_decNode hval₂ hget rfl hbs] at hdes
          unfold decNode at hdes
          cases hde : decEntries ((blobExtension :: exts₂).map
              (fun e => (e.name, e))) stored "$ext" js with
          | error e => rw [hde] at hdes; cases hdes
          | ok rs =>
            rw [hde] at hdes
            injection hdes with hw
            refine ⟨rs, hw.symm, ?_⟩
            rw [decEntries_keys hde]
            exact hkabs

/-- Witness for C6 at a concrete two-entry object and its concrete
container. -/
theorem c6_witness :
    (∃ js, fdGet [("$data",
        FDValue.text (.jsonOf (.obj (.cons "b" (.bool true) .nil))))]
        "$data" = some (.text (.jsonOf (.obj js))) ∧ "gone" ∉ js.keys) ∧
    ∃ rs, JSValue.obj (.cons "b" (.bool true) .nil) = .obj rs ∧
      "gone" ∉ rs.keys := by
  have h := c6_omission [] gen0
    (.cons "gone" .undef (.cons "b" (.bool true) .nil)) "gone"
    (List.mem_cons_self _ _) (by decide) rfl
    [("$data", .text (.jsonOf (.obj (.cons "b" (.bool true) .nil))))] rfl
  exact ⟨h.1, h.2 [] (.obj (.cons "b" (.bool true) .nil)) rfl⟩

/-! ## Claim C4 — decoding with a missing extension

The predicates below describe the encoding situation of the claim: the
dispatch loop fires somewhere in the value (`hasFire`), every node it
fires on is claimed by an extension with the distinguished name and a
textual payload (`firesGood`), exotic values never go unhandled, and no
original string leaf fakes a token (`tokenFree`). -/

/-- `canHandle` fires at this node. -/
def fired (l : List Extension) (v : JSValue) : Bool :=
  (findExt l v).isSome

/-- If the dispatch loop fires at this value, the chosen extension bears
the distinguished name and serializes to a string. -/
def fireOk (l : List Extension) (nm : String) (v : JSValue) : Bool :=
  match findExt l v with
  | some e =>
    decide (e.name = nm) &&
      (match e.serialize v with
       | .str _ => true
       | .blob _ => false)
  | none => true

mutual
/-- Every node the encoder dispatches on either fires with the
distinguished, string-payload extension or fires not at all — and exotic
values always fire. -/
def firesGood (l : List Extension) (nm : String) : JSValue → Bool
  | .null => true
  | .undef => true
  | .str s => fireOk l nm (.str s)
  | .num n => fireOk l nm (.num n)
  | .bool b => fireOk l nm (.bool b)
  | .blob bs => fireOk l nm (.blob bs)
  | .exotic t p => fireOk l nm (.exotic t p) && fired l (.exotic t p)
  | .arr xs => fireOk l nm (.arr xs) &&
      (fired l (.arr xs) || firesGoodL l nm xs)
  | .obj es => fireOk l nm (.obj es) &&
      (fired l (.obj es) || firesGoodE l nm es)

/-- `firesGood` on an array spine. -/
def firesGoodL (l : List Extension) (nm : String) : JSList → Bool
  | .nil => true
  | .cons x xs => firesGood l nm x && firesGoodL l nm xs

/-- `firesGood` on object entries. -/
def firesGoodE (l : List Extension) (nm : String) : JSEntries → Bool
  | .nil => true
  | .cons _ x es => firesGood l nm x && firesGoodE l nm es
end

mutual
/-- Some node the encoder's traversal reaches fires the dispatch loop. -/
def hasFire (l : List Extension) : JSValue → Bool
  | .null => false
  | .undef => false
  | .str s => fired l (.str s)
  | .num n => fired l (.num n)
  | .bool b => fired l (.bool b)
  | .blob bs => fired l (.blob bs)
  | .exotic t p => fired l (.exotic t p)
  | .arr xs => fired l (.arr xs) || hasFireL l xs
  | .obj es => fired l (.obj es) || hasFireE l es

/-- `hasFire` on an array spine. -/
def hasFireL (l : List Extension) : JSList → Bool
  | .nil => false
  | .cons x xs => hasFire l x || hasFireL l xs

/-- `hasFire` on object entries. -/
def hasFireE (l : List Extension) : JSEntries → Bool
  | .nil => false
  | .cons _ x es => hasFire l x || hasFireE l es
end

mutual
/-- Every token-shaped string of the parsed skeleton names the
distinguished extension. -/
def skelTok (pre nm : String) : JSON → Bool
  | .str s =>
    match matchExtToken pre s with
    | some p => decide (p.1 = nm)
    | none => true
  | .num _ => true
  | .bool _ => true
  | .null => true
  | .arr xs => skelTokL pre nm xs
  | .obj es => skelTokE pre nm es

/-- `skelTok` on an array spine. -/
def skelTokL (pre nm : String) : JSONList → Bool
  | .nil => true
  | .cons x xs => skelTok pre nm x && skelTokL pre nm xs

/-- `skelTok` on object entries. -/
def skelTokE (pre nm : String) : JSONEntries → Bool
  | .nil => true
  | .cons _ x es => skelTok pre nm x && skelTokE pre nm es
end

mutual
/-- The parsed skeleton contains at least one token-shaped string. -/
def jsonHasTok (pre : String) : JSON → Bool
  | .str s => (matchExtToken pre s).isSome
  | .num _ => false
  | .bool _ => false
  | .null => false
  | .arr xs => jsonHasTokL pre xs
  | .obj es => jsonHasTokE pre es

/-- `jsonHasTok` on an array spine. -/
def jsonHasTokL (pre : String) : JSONList → Bool
  | .nil => false
  | .cons x xs => jsonHasTok pre x || jsonHasTokL pre xs

/-- `jsonHasTok` on object entries. -/
def jsonHasTokE (pre : String) : JSONEntries → Bool
  | .nil => false
  | .cons _ x es => jsonHasTok pre x || jsonHasTokE pre es
end

mutual
/-- When the distinguished name is absent from the extension map and every
token of the skeleton bears that name, the walk fails with
`UnknownExtension` of that name as soon as a token exists, and succeeds
otherwise. -/
theorem decNode_unknown (m : List (String × Extension))
    (stored : List (String × StoredValue)) (pre nm : String)
    (hnm : mapGet m nm = none) :
    ∀ j : JSON, skelTok pre nm j = true →
      (jsonHasTok pre j = true →
        decNode m stored pre j = .error (.unknownExtension nm)) ∧
      (jsonHasTok pre j = false → ∃ w, decNode m stored pre j = .ok w)
  | .str s => fun hsk => by
    constructor
    · intro hht
      replace hht : (matchExtToken pre s).isSome = true := hht
      cases hmt : matchExtToken pre s with
      | none => rw [hmt] at hht; cases hht
      | some p =>
        obtain ⟨n, i⟩ := p
        replace hsk : (match matchExtToken pre s with
          | some p => decide (p.1 = nm)
          | none => true) = true := hsk
        rw [hmt] at hsk
        dsimp only at hsk
        have hn : n = nm := of_decide_eq_true hsk
        subst hn
        unfold decNode
        rw [hmt]
        dsimp only
        rw [hnm]
    · intro hht
      replace hht : (matchExtToken pre s).isSome = false := hht
      cases hmt : matchExtToken pre s with
      | some p => rw [hmt] at hht; cases hht
      | none =>
        refine ⟨.str s, ?_⟩
        unfold decNode
        rw [hmt]
  | .num n => fun _ => ⟨(fun h => nomatch h), fun _ => ⟨.num n, rfl⟩⟩
  | .bool b => fun _ => ⟨(fun h => nomatch h), fun _ => ⟨.bool b, rfl⟩⟩
  | .null => fun _ => ⟨(fun h => nomatch h), fun _ => ⟨.null, rfl⟩⟩
  | .arr xs => fun hsk => by
    have h := decList_unknown m stored pre nm hnm xs hsk
    constructor
    · intro hht
      unfold decNode
      rw [h.1 hht]
    · intro hht
      rcases h.2 hht with ⟨ws, hws⟩
      refine ⟨.arr ws, ?_⟩
      unfold decNode
      rw [hws]
  | .obj es => fun hsk => by
    have h := decEntries_unknown m stored pre nm hnm es hsk
    constructor
    · intro hht
      unfold decNode
      rw [h.1 hht]
    · intro hht
      rcases h.2 hht with ⟨ws, hws⟩
      refine ⟨.obj ws, ?_⟩
      unfold decNode
      rw [hws]

/-- `decNode_unknown` on an array spine. -/
theorem decList_unknown (m : List (String × Extension))
    (stored : List (String × StoredValue)) (pre nm : String)
    (hnm : mapGet m nm = none) :
    ∀ xs : JSONList, skelTokL pre nm xs = true →
      (jsonHasTokL pre xs = true →
        decList m stored pre xs = .error (.unknownExtension nm)) ∧
      (jsonHasTokL pre xs = false → ∃ ws, decList m stored pre xs = .ok ws)
  | .nil => fun _ => ⟨(fun h => nomatch h), fun _ => ⟨.nil, rfl⟩⟩
  | .cons x xs => fun hsk => by
    replace hsk : (skelTok pre nm x && skelTokL pre nm xs) = true := hsk
    rw [Bool.and_eq_true] at hsk
    have hx := decNode_unknown m stored pre nm hnm x hsk.1
    have hxs := decList_unknown m stored pre nm hnm xs hsk.2
    constructor
    · intro hht
      replace hht : (jsonHasTok pre x || jsonHasTokL pre xs) = true := hht
      cases hhx : jsonHasTok pre x with
      | true =>
        unfold decList
        rw [hx.1 hhx]
      | false =>
        have hhxs : jsonHasTokL pre xs = true := by
          rw [hhx] at hht
          simpa using hht
        rcases hx.2 hhx with ⟨w, hw⟩
        unfold decList
        rw [hw, hxs.1 hhxs]
    · intro hht
      replace hht : (jsonHasTok pre x || jsonHasTokL pre xs) = false := hht
      cases hhx : jsonHasTok pre x with
      | true => rw [hhx] at hht; cases hht
      | false =>
        have hhxs : jsonHasTokL pre xs = false := by
          rw [hhx] at hht
          simpa using hht
        rcases hx.2 hhx with ⟨w, hw⟩
        rcases hxs.2 hhxs with ⟨ws, hws⟩
        refine ⟨.cons w ws, ?_⟩
        unfold decList
        rw [hw, hws]

/-- `decNode_unknown` on object entries. -/
theorem decEntries_unknown (m : List (String × Extension))
    (stored : List (String × StoredValue)) (pre nm : String)
    (hnm : mapGet m nm = none) :
    ∀ es : JSONEntries, skelTokE pre nm es = true →
      (jsonHasTokE pre es = true →
        decEntries m stored pre es = .error (.unknownExtension nm)) ∧
      (jsonHasTokE pre es = false → ∃ ws, decEntries m stored pre es = .ok ws)
  | .nil => fun _ => ⟨(fun h => nomatch h), fun _ => ⟨.nil, rfl⟩⟩
  | .cons k x es => fun hsk => by
    replace hsk : (skelTok pre nm x && skelTokE pre nm es) = true := hsk
    rw [Bool.and_eq_true] at hsk
    have hx := decNode_unknown m stored pre nm hnm x hsk.1
    have hes := decEntries_unknown m stored pre nm hnm es hsk.2
    constructor
    · intro hht
      replace hht : (jsonHasTok pre x || jsonHasTokE pre es) = true := hht
      cases hhx : jsonHasTok pre x with
      | true =>
        unfold decEntries
        rw [hx.1 hhx]
      | false =>
        have hhes : jsonHasTokE pre es = true := by
          rw [hhx] at hht
          simpa using hht
        rcases hx.2 hhx with ⟨w, hw⟩
        unfold decEntries
        rw [hw, hes.1 hhes]
    · intro hht
      replace hht : (jsonHasTok pre x || jsonHasTokE pre es) = false := hht
      cases hhx : jsonHasTok pre x with
      | true => rw [hhx] at hht; cases hht
      | false =>
        have hhes : jsonHasTokE pre es = false := by
          rw [hhx] at hht
          simpa using hht
        rcases hx.2 hhx with ⟨w, hw⟩
        rcases hes.2 hhes with ⟨ws, hws⟩
        refine ⟨.cons k w ws, ?_⟩
        unfold decEntries
        rw [hw, hws]
end

/-- A hole the encoder minted under the distinguished name: key of token
shape with a wellformed id, textual payload. -/
def goodHole (pre nm : String) (kv : String × StoredValue) : Prop :=
  (∃ i, kv.1 = holeKey pre nm i ∧ i ≠ "" ∧ i.data.any isLineTerm = false) ∧
  ∃ s, kv.2 = StoredValue.str s

theorem isUndef_false_of_stringify {w : JSValue} {j : JSON}
    (h : stringifyTree w = some j) : w.isUndef = false := by
  cases w <;> first
    | rfl
    | (rw [show stringifyTree .undef = none from rfl] at h; cases h)

/-- The fired case of the encoder: the node becomes a token named by the
distinguished extension, with a textual payload recorded under that
token. -/
theorem encC4_fired {l : List Extension} {pre nm : String}
    {gen : Nat → String}
    (hnm1 : nm ≠ "") (hnm2 : containsColon nm = false)
    (hgen : ∀ n, gen n ≠ "" ∧ (gen n).data.any isLineTerm = false)
    {v : JSValue} {e : Extension} {st : EncState}
    (hnn : v.isNullish = false)
    (hf : findExt l v = some e)
    (hok : fireOk l nm v = true) :
    (∀ kv ∈ (encNode l pre gen v st).2.holes,
      kv ∈ st.holes ∨ goodHole pre nm kv) ∧
    ∃ j, stringifyTree (encNode l pre gen v st).1 = some j ∧
      skelTok pre nm j = true ∧ jsonHasTok pre j = true := by
  have hmint := @encNode_fired l pre gen v e st hnn hf
  unfold fireOk at hok
  rw [hf] at hok
  dsimp only at hok
  rw [Bool.and_eq_true] at hok
  obtain ⟨hname, hser⟩ := hok
  have hname' : e.name = nm := of_decide_eq_true hname
  have hename1 : e.name ≠ "" := by rw [hname']; exact hnm1
  have hename2 : containsColon e.name = false := by rw [hname']; exact hnm2
  cases hsv : e.serialize v with
  | blob b => rw [hsv] at hser; exact absurd hser (by simp)
  | str s =>
    rw [hmint]
    unfold mint
    dsimp only
    constructor
    · intro kv hkv
      rcases mem_mapSet hkv with rfl | h'
      · refine Or.inr ⟨⟨gen st.ctr, by rw [hname'], (hgen st.ctr).1,
          (hgen st.ctr).2⟩, ⟨s, by rw [hsv]⟩⟩
      · exact Or.inl h'
    · refine ⟨.str (holeKey pre e.name (gen st.ctr)), rfl, ?_, ?_⟩
      · show (match matchExtToken pre (holeKey pre e.name (gen st.ctr)) with
          | some p => decide (p.1 = nm)
          | none => true) = true
        rw [matchExtToken_holeKey hename1 hename2 (hgen st.ctr).1
          (hgen st.ctr).2]
        dsimp only
        rw [hname']
        exact decide_eq_true rfl
      · show (matchExtToken pre (holeKey pre e.name (gen st.ctr))).isSome = true
        rw [matchExtToken_holeKey hename1 hename2 (hgen st.ctr).1
          (hgen st.ctr).2]
        rfl

mutual
/-- The encoder invariant for the missing-extension claim: under
`firesGood`/`tokenFree`, the walk mints only good holes and produces a
stringifiable skeleton whose tokens all name the distinguished extension —
with a token guaranteed wherever the dispatch loop fired. -/
theorem encC4_node (l : List Extension) (pre nm : String)
    (gen : Nat → String)
    (hnm1 : nm ≠ "") (hnm2 : containsColon nm = false)
    (hgen : ∀ n, gen n ≠ "" ∧ (gen n).data.any isLineTerm = false) :
    ∀ (v : JSValue) (st : EncState), firesGood l nm v = true →
      tokenFree pre v = true → v.isUndef = false →
      (∀ kv ∈ (encNode l pre gen v st).2.holes,
        kv ∈ st.holes ∨ goodHole pre nm kv) ∧
      ∃ j, stringifyTree (encNode l pre gen v st).1 = some j ∧
        skelTok pre nm j = true ∧
        (hasFire l v = true → jsonHasTok pre j = true)
  | .str s => fun st hfg htf _ => by
    cases hf : findExt l (.str s) with
    | some e =>
      have h := @encC4_fired l pre nm gen hnm1 hnm2 hgen (.str s) e st rfl hf
        (show fireOk l nm (.str s) = true from hfg)
      rcases h with ⟨hh, j, hj, hs, hht⟩
      exact ⟨hh, ⟨j, hj, hs, fun _ => hht⟩⟩
    | none =>
      have henc : encNode l pre gen (.str s) st = (.str s, st) := by
        simp [encNode, hf]
      rw [henc]
      refine ⟨fun kv hkv => Or.inl hkv, ⟨.str s, rfl, ?_, ?_⟩⟩
      · have hm : matchExtToken pre s = none := Option.isNone_iff_eq_none.mp htf
        show (match matchExtToken pre s with
          | some p => decide (p.1 = nm)
          | none => true) = true
        rw [hm]
      · intro hhf
        replace hhf : (findExt l (.str s)).isSome = true := hhf
        rw [hf] at hhf
        cases hhf
  | .num n => fun st hfg _ _ => by
    cases hf : findExt l (.num n) with
    | some e =>
      have h := @encC4_fired l pre nm gen hnm1 hnm2 hgen (.num n) e st rfl hf
        (show fireOk l nm (.num n) = true from hfg)
      rcases h with ⟨hh, j, hj, hs, hht⟩
      exact ⟨hh, ⟨j, hj, hs, fun _ => hht⟩⟩
    | none =>
      have henc : encNode l pre gen (.num n) st = (.num n, st) := by
        simp [encNode, hf]
      rw [henc]
      refine ⟨fun kv hkv => Or.inl hkv, ⟨.num n, rfl, rfl, ?_⟩⟩
      intro hhf
      replace hhf : (findExt l (.num n)).isSome = true := hhf
      rw [hf] at hhf
      cases hhf
  | .bool b => fun st hfg _ _ => by
    cases hf : findExt l (.bool b) with
    | some e =>
      have h := @encC4_fired l pre nm gen hnm1 hnm2 hgen (.bool b) e st rfl hf
        (show fireOk l nm (.bool b) = true from hfg)
      rcases h with ⟨hh, j, hj, hs, hht⟩
      exact ⟨hh, ⟨j, hj, hs, fun _ => hht⟩⟩
    | none =>
      have henc : encNode l pre gen (.bool b) st = (.bool b, st) := by
        simp [encNode, hf]
      rw [henc]
      refine ⟨fun kv hkv => Or.inl hkv, ⟨.bool b, rfl, rfl, ?_⟩⟩
      intro hhf
      replace hhf : (findExt l (.bool b)).isSome = true := hhf
      rw [hf] at hhf
      cases hhf
  | .null => fun st _ _ _ =>
    ⟨fun _ hkv => Or.inl hkv, ⟨.null, rfl, rfl, fun h => nomatch h⟩⟩
  | .undef => fun _ _ _ hvu => nomatch hvu
  | .blob bs => fun st hfg _ _ => by
    cases hf : findExt l (.blob bs) with
    | some e =>
      have h := @encC4_fired l pre nm gen hnm1 hnm2 hgen (.blob bs) e st rfl hf
        (show fireOk l nm (.blob bs) = true from hfg)
      rcases h with ⟨hh, j, hj, hs, hht⟩
      exact ⟨hh, ⟨j, hj, hs, fun _ => hht⟩⟩
    | none =>
      have henc : encNode l pre gen (.blob bs) st = (.blob bs, st) := by
        simp [encNode, hf]
      rw [henc]
      refine ⟨fun kv hkv => Or.inl hkv, ⟨.obj .nil, rfl, rfl, ?_⟩⟩
      intro hhf
      replace hhf : (findExt l (.blob bs)).isSome = true := hhf
      rw [hf] at hhf
      cases hhf
  | .exotic t p => fun st hfg _ _ => by
    replace hfg : (fireOk l nm (.exotic t p) && fired l (.exotic t p)) = true :=
      hfg
    rw [Bool.and_eq_true] at hfg
    cases hf : findExt l (.exotic t p) with
    | some e =>
      have h := @encC4_fired l pre nm gen hnm1 hnm2 hgen (.exotic t p) e st rfl hf hfg.1
      rcases h with ⟨hh, j, hj, hs, hht⟩
      exact ⟨hh, ⟨j, hj, hs, fun _ => hht⟩⟩
    | none =>
      have := hfg.2
      unfold fired at this
      rw [hf] at this
      cases this
  | .arr xs => fun st hfg htf _ => by
    replace hfg : (fireOk l nm (.arr xs) &&
      (fired l (.arr xs) || firesGoodL l nm xs)) = true := hfg
    rw [Bool.and_eq_true] at hfg
    cases hf : findExt l (.arr xs) with
    | some e =>
      have h := @encC4_fired l pre nm gen hnm1 hnm2 hgen (.arr xs) e st rfl hf hfg.1
      rcases h with ⟨hh, j, hj, hs, hht⟩
      exact ⟨hh, ⟨j, hj, hs, fun _ => hht⟩⟩
    | none =>
      have hfired : fired l (.arr xs) = false := by
        unfold fired
        rw [hf]
        rfl
      have hfgl : firesGoodL l nm xs = true := by
        have := hfg.2
        rw [hfired] at this
        simpa using this
      have htfl : tokenFreeL pre xs = true := htf
      have h := encC4_list l pre nm gen hnm1 hnm2 hgen xs st hfgl htfl
      rcases h with ⟨hh, js, hjs, hsk, hht⟩
      have henc : encNode l pre gen (.arr xs) st =
          (.arr (encList l pre gen xs st).1, (encList l pre gen xs st).2) := by
        simp [encNode, hf]
      rw [henc]
      refine ⟨hh, ⟨.arr js, ?_, hsk, ?_⟩⟩
      · show (stringifyArr (encList l pre gen xs st).1).map JSON.arr = _
        rw [hjs]
        rfl
      · intro hhf
        replace hhf : (fired l (.arr xs) || hasFireL l xs) = true := hhf
        rw [hfired] at hhf
        exact hht (by simpa using hhf)
  | .obj es => fun st hfg htf _ => by
    replace hfg : (fireOk l nm (.obj es) &&
      (fired l (.obj es) || firesGoodE l nm es)) = true := hfg
    rw [Bool.and_eq_true] at hfg
    cases hf : findExt l (.obj es) with
    | some e =>
      have h := @encC4_fired l pre nm gen hnm1 hnm2 hgen (.obj es) e st rfl hf hfg.1
      rcases h with ⟨hh, j, hj, hs, hht⟩
      exact ⟨hh, ⟨j, hj, hs, fun _ => hht⟩⟩
    | none =>
      have hfired : fired l (.obj es) = false := by
        unfold fired
        rw [hf]
        rfl
      have hfge : firesGoodE l nm es = true := by
        have := hfg.2
        rw [hfired] at this
        simpa using this
      have htfe : tokenFreeE pre es = true := htf
      have h := encC4_entries l pre nm gen hnm1 hnm2 hgen es st hfge htfe
      rcases h with ⟨hh, fs, hfs, hsk, hht⟩
      have henc : encNode l pre gen (.obj es) st =
          (.obj (encEntries l pre gen es st).1,
            (encEntries l pre gen es st).2) := by
        simp [encNode, hf]
      rw [henc]
      refine ⟨hh, ⟨.obj fs, ?_, hsk, ?_⟩⟩
      · show (stringifyObj (encEntries l pre gen es st).1).map JSON.obj = _
        rw [hfs]
        rfl
      · intro hhf
        replace hhf : (fired l (.obj es) || hasFireE l es) = true := hhf
        rw [hfired] at hhf
        exact hht (by simpa using hhf)

/-- `encC4_node` on an array spine. -/
theorem encC4_list (l : List Extension) (pre nm : String)
    (gen : Nat → String)
    (hnm1 : nm ≠ "") (hnm2 : containsColon nm = false)
    (hgen : ∀ n, gen n ≠ "" ∧ (gen n).data.any isLineTerm = false) :
    ∀ (xs : JSList) (st : EncState), firesGoodL l nm xs = true →
      tokenFreeL pre xs = true →
      (∀ kv ∈ (encList l pre gen xs st).2.holes,
        kv ∈ st.holes ∨ goodHole pre nm kv) ∧
      ∃ js, stringifyArr (encList l pre gen xs st).1 = some js ∧
        skelTokL pre nm js = true ∧
        (hasFireL l xs = true → jsonHasTokL pre js = true)
  | .nil => fun st _ _ =>
    ⟨fun _ hkv => Or.inl hkv, ⟨.nil, rfl, rfl, fun h => nomatch h⟩⟩
  | .cons x xs => fun st hfg htf => by
    replace hfg : (firesGood l nm x && firesGoodL l nm xs) = true := hfg
    replace htf : (tokenFree pre x && tokenFreeL pre xs) = true := htf
    rw [Bool.and_eq_true] at hfg htf
    by_cases hxu : x.isUndef = true
    · have hxe : x = JSValue.undef := by
        cases x <;> first | rfl | (exact absurd hxu (by simp [JSValue.isUndef]))
      subst hxe
      have h := encC4_list l pre nm gen hnm1 hnm2 hgen xs st hfg.2 htf.2
      rcases h with ⟨hh, js, hjs, hsk, hht⟩
      refine ⟨hh, ⟨.cons .null js, ?_, ?_, ?_⟩⟩
      · show (stringifyArr (encList l pre gen xs st).1).map
          (fun ys => JSONList.cons .null ys) = _
        rw [hjs]
        rfl
      · show (skelTok pre nm JSON.null && skelTokL pre nm js) = true
        rw [hsk]
        rfl
      · intro hhf
        replace hhf : (hasFire l JSValue.undef || hasFireL l xs) = true := hhf
        rw [show hasFire l JSValue.undef = false from rfl] at hhf
        have hhxs : hasFireL l xs = true := by simpa using hhf
        show (jsonHasTok pre JSON.null || jsonHasTokL pre js) = true
        rw [hht hhxs]
        rfl
    · have hn := encC4_node l pre nm gen hnm1 hnm2 hgen x st hfg.1 htf.1
        (by simpa using hxu)
      rcases hn with ⟨hhx, jx, hjx, hskx, hhtx⟩
      have hl := encC4_list l pre nm gen hnm1 hnm2 hgen xs
        (encNode l pre gen x st).2 hfg.2 htf.2
      rcases hl with ⟨hhxs, js, hjs, hsks, hhts⟩
      have hru : (encNode l pre gen x st).1.isUndef = false :=
        isUndef_false_of_stringify hjx
      refine ⟨?_, ⟨.cons jx js, ?_, ?_, ?_⟩⟩
      · intro kv hkv
        rcases hhxs kv hkv with h' | h'
        · exact hhx kv h'
        · exact Or.inr h'
      · show stringifyArr (.cons (encNode l pre gen x st).1
          (encList l pre gen xs (encNode l pre gen x st).2).1) = _
        rw [stringifyArr_cons_of_not_undef hru, hjx, hjs]
      · show (skelTok pre nm jx && skelTokL pre nm js) = true
        rw [hskx, hsks]
        rfl
      · intro hhf
        replace hhf : (hasFire l x || hasFireL l xs) = true := hhf
        show (jsonHasTok pre jx || jsonHasTokL pre js) = true
        cases hhx2 : hasFire l x with
        | true =>
          rw [hhtx hhx2]
          rfl
        | false =>
          rw [hhx2] at hhf
          rw [hhts (by simpa using hhf)]
          cases jsonHasTok pre jx <;> rfl

/-- `encC4_node` on object entries. -/
theorem encC4_entries (l : List Extension) (pre nm : String)
    (gen : Nat → String)
    (hnm1 : nm ≠ "") (hnm2 : containsColon nm = false)
    (hgen : ∀ n, gen n ≠ "" ∧ (gen n).data.any isLineTerm = false) :
    ∀ (es : JSEntries) (st : EncState), firesGoodE l nm es = true →
      tokenFreeE pre es = true →
      (∀ kv ∈ (encEntries l pre gen es st).2.holes,
        kv ∈ st.holes ∨ goodHole pre nm kv) ∧
      ∃ fs, stringifyObj (encEntries l pre gen es st).1 = some fs ∧
        skelTokE pre nm fs = true ∧
        (hasFireE l es = true → jsonHasTokE pre fs = true)
  | .nil => fun st _ _ =>
    ⟨fun _ hkv => Or.inl hkv, ⟨.nil, rfl, rfl, fun h => nomatch h⟩⟩
  | .cons k x es => fun st hfg htf => by
    replace hfg : (firesGood l nm x && firesGoodE l nm es) = true := hfg
    replace htf : (tokenFree pre x && tokenFreeE pre es) = true := htf
    rw [Bool.and_eq_true] at hfg htf
    by_cases hxu : x.isUndef = true
    · have hxe : x = JSValue.undef := by
        cases x <;> first | rfl | (exact absurd hxu (by simp [JSValue.isUndef]))
      subst hxe
      have h := encC4_entries l pre nm gen hnm1 hnm2 hgen es st hfg.2 htf.2
      rcases h with ⟨hh, fs, hfs, hsk, hht⟩
      refine ⟨hh, ⟨fs, ?_, hsk, ?_⟩⟩
      · show stringifyObj (.cons k JSValue.undef
          (encEntries l pre gen es st).1) = _
        rw [show stringifyObj (.cons k JSValue.undef
          (encEntries l pre gen es st).1) =
            stringifyObj (encEntries l pre gen es st).1 from rfl]
        exact hfs
      · intro hhf
        replace hhf : (hasFire l JSValue.undef || hasFireE l es) = true := hhf
        rw [show hasFire l JSValue.undef = false from rfl] at hhf
        exact hht (by simpa using hhf)
    · have hn := encC4_node l pre nm gen hnm1 hnm2 hgen x st hfg.1 htf.1
        (by simpa using hxu)
      rcases hn with ⟨hhx, jx, hjx, hskx, hhtx⟩
      have hl := encC4_entries l pre nm gen hnm1 hnm2 hgen es
        (encNode l pre gen x st).2 hfg.2 htf.2
      rcases hl with ⟨hhxs, fs, hfs, hsks, hhts⟩
      have hru : (encNode l pre gen x st).1.isUndef = false :=
        isUndef_false_of_stringify hjx
      refine ⟨?_, ⟨.cons k jx fs, ?_, ?_, ?_⟩⟩
      · intro kv hkv
        rcases hhxs kv hkv with h' | h'
        · exact hhx kv h'
        · exact Or.inr h'
      · show stringifyObj (.cons k (encNode l pre gen x st).1
          (encEntries l pre gen es (encNode l pre gen x st).2).1) = _
        rw [stringifyObj_cons_of_not_undef hru, hjx, hfs]
      · show (skelTok pre nm jx && skelTokE pre nm fs) = true
        rw [hskx, hsks]
        rfl
      · intro hhf
        replace hhf : (hasFire l x || hasFireE l es) = true := hhf
        show (jsonHasTok pre jx || jsonHasTokE pre fs) = true
        cases hhx2 : hasFire l x with
        | true =>
          rw [hhtx hhx2]
          rfl
        | false =>
          rw [hhx2] at hhf
          rw [hhts (by simpa using hhf)]
          cases jsonHasTok pre jx <;> rfl
end

/-- The pre-pass succeeds when every entry is acceptable from any
accumulator state. -/
theorem buildStoredAux_ok_of_entries {dk ep : String} :
    ∀ fd : FormDataM,
      (∀ kv ∈ fd, ∀ acc, ∃ acc', storedStep dk ep acc kv = .ok acc') →
      ∀ acc, ∃ stored, buildStoredAux dk ep acc fd = .ok stored
  | [] => fun _ acc => ⟨acc, rfl⟩
  | kv :: rest => fun h acc => by
    rcases h kv (List.mem_cons_self _ _) acc with ⟨acc', hacc⟩
    rcases buildStoredAux_ok_of_entries rest
      (fun q hq => h q (List.mem_cons_of_mem _ hq)) acc' with ⟨stored, hst⟩
    refine ⟨stored, ?_⟩
    unfold buildStoredAux
    rw [hacc]
    exact hst

/-- Claim C4 counterexample: an extension whose payload is binary makes
decoding with an empty extension list fail in the side-table pre-pass with
a value-type error, not with `UnknownExtension` naming the extension. -/
theorem c4_counterexample :
    serialize (.exotic "y" "p") [binPayloadExt] (fun _ => "0")
        "$data" "$ext" =
      .ok [("$data", .text (.jsonOf (.str "$ext:bin:0"))),
           ("$ext:bin:0", .blob [1, 2])] ∧
    deserialize [("$data", .text (.jsonOf (.str "$ext:bin:0"))),
           ("$ext:bin:0", .blob [1, 2])] [] "$data" "$ext" =
      .error (.unexpectedValueType "$ext:bin:0") :=
  ⟨rfl, rfl⟩

/-- Claim C4 (amended): encode a value in which the dispatch loop fires at
least once, always selecting the (validated, non-`blob`-named,
string-payload) extension named `E.name`, with wellformed fresh ids and no
token-shaped original string leaves; then decoding the container with an
empty extension list fails with `UnknownExtension` naming `E`. -/
theorem c4_missing_extension (v : JSValue) (exts : List Extension)
    (E : Extension) (gen : Nat → String)
    (hval : validateExtensions exts = .ok ())
    (hmem : E ∈ exts) (hnb : E.name ≠ "blob")
    (hfg : firesGood (blobExtension :: exts) E.name v = true)
    (hhf : hasFire (blobExtension :: exts) v = true)
    (htf : tokenFree "$ext" v = true)
    (hgen : ∀ n, gen n ≠ "" ∧ (gen n).data.any isLineTerm = false) :
    ∃ fd, serialize v exts gen "$data" "$ext" = .ok fd ∧
      deserialize fd [] "$data" "$ext" =
        .error (.unknownExtension E.name) := by
  have hgood := goodName_token ((validateExtensions_ok_iff.mp hval).1 E hmem)
  have hvu : v.isUndef = false := by
    cases v <;> first | rfl | (exact absurd hhf (by simp [hasFire]))
  obtain ⟨hholes, j, hj, hsk, hht⟩ :=
    encC4_node (blobExtension :: exts) "$ext" E.name gen hgood.1 hgood.2 hgen
      v ⟨0, []⟩ hfg htf hvu
  set r := encNode (blobExtension :: exts) "$ext" gen v ⟨0, []⟩ with hr
  have hgoodholes : ∀ p ∈ r.2.holes, goodHole "$ext" E.name p := by
    intro p hp
    rcases hholes p hp with h' | h'
    · cases h'
    · exact h'
  have hser : serialize v exts gen "$data" "$ext" =
      .ok (r.2.holes.foldl (fun fd kv => fdSet fd kv.1 (storedToFD kv.2))
        (fdSet [] "$data" (.text (.jsonOf j)))) := by
    unfold serialize
    rw [if_neg (show ¬ (v.isUndef = true) from fun h => by
      rw [hvu] at h; cases h), hval]
    dsimp only
    rw [← hr, hj]
  have hkeys : ∀ p ∈ r.2.holes, p.1 ≠ "$data" := by
    intro p hp
    rcases hgoodholes p hp with ⟨⟨i, hki, -, -⟩, -⟩
    rw [hki]
    exact holeKey_ne_dataKey _ _
  have hget : fdGet (r.2.holes.foldl
      (fun fd kv => fdSet fd kv.1 (storedToFD kv.2))
      (fdSet [] "$data" (.text (.jsonOf j)))) "$data" =
      some (.text (.jsonOf j)) := by
    rw [fdGet_foldl_fdSet_ne r.2.holes _ hkeys]
    rfl
  have hbs : ∃ stored, buildStored (r.2.holes.foldl
      (fun fd kv => fdSet fd kv.1 (storedToFD kv.2))
      (fdSet [] "$data" (.text (.jsonOf j)))) "$data" "$ext" =
      .ok stored := by
    apply buildStoredAux_ok_of_entries
    intro kv hkv acc
    rcases mem_foldl_fdSet _ _ hkv with hbase | ⟨p, hp, rfl⟩
    · have hb : kv ∈ [("$data", FDValue.text (.jsonOf j))] := hbase
      rw [List.mem_singleton] at hb
      subst hb
      exact ⟨acc, rfl⟩
    · rcases hgoodholes p hp with ⟨⟨i, hki, hi1, hi2⟩, s, hs⟩
      refine ⟨mapSet acc p.1 (.str s), ?_⟩
      unfold storedStep
      rw [if_neg (show ¬ ((p.1, storedToFD p.2).1 = "$data") from by
        dsimp only
        rw [hki]
        exact holeKey_ne_dataKey _ _)]
      rw [show matchExtToken "$ext" (p.1, storedToFD p.2).1 =
        some (E.name, i) from by
          dsimp only
          rw [hki]
          exact matchExtToken_holeKey hgood.1 hgood.2 hi1 hi2]
      dsimp only
      rw [if_neg hnb, hs]
      rfl
  obtain ⟨stored, hstored⟩ := hbs
  have hmap : mapGet ((blobExtension :: ([] : List Extension)).map
      (fun e => (e.name, e))) E.name = none := by
    show (if ("blob" : String) = E.name then some blobExtension else none) =
      none
    rw [if_neg (fun h => hnb h.symm)]
  refine ⟨_, hser, ?_⟩
  rw [@deserialize_eq_decNode _ [] _ _ _ _ _ rfl hget rfl hstored]
  exact (decNode_unknown _ stored "$ext" E.name hmap j hsk).1 (hht hhf)

/-- Witness for C4 (amended) at a nested date-like leaf. -/
theorem c4_witness :
    ∃ fd, serialize (.obj (.cons "t" (.exotic "date" "x") .nil))
        [dateLikeExt] (fun _ => "id0") "$data" "$ext" = .ok fd ∧
      deserialize fd [] "$data" "$ext" =
        .error (.unknownExtension dateLikeExt.name) :=
  c4_missing_extension (.obj (.cons "t" (.exotic "date" "x") .nil))
    [dateLikeExt] dateLikeExt (fun _ => "id0") rfl
    (List.mem_cons_self _ _) (by decide) rfl rfl rfl
    (fun _ => ⟨by show ("id0" : String) ≠ ""; decide,
      by show ("id0" : String).data.any isLineTerm = false; decide⟩)

end FormDataSerializer
